import Mathlib

/-!
Verification development for the branchedflowsim numerical pipeline.

The definitions below are shallow embeddings of the C++ sources:
machine integers become `Nat`/`Int` (with explicit wrap where the code
converts between widths), `double` values become `ℝ` (or `ℚ` where the
code only performs field operations, so that statements stay decidable),
fallible code returns `Except`, and a binary file becomes a list of
write-primitive tokens.  Each section names the source file it embeds.
-/

/-!
## Multi-index (src/common/multiindex.hpp, src/common/multiindex.cpp)

`MultiIndex` stores per-axis lower/upper bounds and a current position in
fixed `std::array<int, 4>` buffers (`MAX_MULTIINDEX_DIMENSION = 4`),
together with the dimension and a validity flag.  The arrays are modelled
as integer lists; `MultiIndex.wf` records the length-4 / dimension-at-most-4
facts the C++ constructor guarantees.
-/

/-- Model of the C++ `MultiIndex`: bounds, current position, dimension and
validity flag.  The three storage lists model `std::array<int, 4>` members. -/
structure MultiIndex where
  mDimension : ℕ
  mLowerBound : List ℤ
  mUpperBound : List ℤ
  mCurrentPos : List ℤ
  mIsValid : Bool
deriving DecidableEq

/-- Structural wellformedness guaranteed by the C++ constructor: the dimension
is at most `MAX_MULTIINDEX_DIMENSION = 4` (larger requests throw) and the
storage arrays have exactly four entries. -/
def MultiIndex.wf (m : MultiIndex) : Prop :=
  m.mDimension ≤ 4 ∧ m.mLowerBound.length = 4 ∧
    m.mUpperBound.length = 4 ∧ m.mCurrentPos.length = 4

instance (m : MultiIndex) : Decidable m.wf := by
  unfold MultiIndex.wf; infer_instance

/-- `MultiIndex::init`: refuses a valid (in-use) index (`checkNotValid`),
throws `logic_error` when some axis has `lower >= upper`, otherwise copies
the lower bounds into the current position and sets the validity flag. -/
def MultiIndex.init (m : MultiIndex) : Except Unit MultiIndex :=
  if m.mIsValid then Except.error ()
  else if (List.range m.mDimension).all
      (fun i => decide (m.mLowerBound.getD i 0 < m.mUpperBound.getD i 0)) then
    Except.ok { m with mCurrentPos := m.mLowerBound, mIsValid := true }
  else Except.error ()

/-- The descending loop of `MultiIndex::increment`: axis `k` is incremented;
if it stays below its upper bound the loop stops returning `k`, otherwise the
axis is reset to its lower bound and the next-outer axis is processed.  When
the outermost axis carries out, the validity flag is cleared. -/
def MultiIndex.incrementFrom : MultiIndex → ℕ → MultiIndex × ℕ
  | m, 0 => ({ m with mIsValid := false }, 0)
  | m, k + 1 =>
    if m.mCurrentPos.getD k 0 + 1 < m.mUpperBound.getD k 0 then
      ({ m with mCurrentPos := m.mCurrentPos.set k (m.mCurrentPos.getD k 0 + 1) }, k)
    else
      MultiIndex.incrementFrom
        { m with mCurrentPos := m.mCurrentPos.set k (m.mLowerBound.getD k 0) } k

/-- `MultiIndex::increment`: run the carry loop from the innermost axis
(`mDimension - 1`) outwards. -/
def MultiIndex.increment (m : MultiIndex) : MultiIndex × ℕ :=
  MultiIndex.incrementFrom m m.mDimension

/-- `MultiIndex::setUpperBoundDynamic`: `std::array::at` bounds check against
the fixed capacity 4, then the two guard clauses of the C++ code — the new
upper bound must be strictly above the lower bound and strictly above the
current position of that axis. -/
def MultiIndex.setUpperBoundDynamic (m : MultiIndex) (dim : ℕ) (ub : ℤ) :
    Except Unit MultiIndex :=
  if 4 ≤ dim then Except.error ()
  else if ub ≤ m.mLowerBound.getD dim 0 then Except.error ()
  else if ub ≤ m.mCurrentPos.getD dim 0 then Except.error ()
  else Except.ok { m with mUpperBound := m.mUpperBound.set dim ub }

/-- Box invariant of a multi-index: on every axis below the dimension the
current position lies in `[lower, upper)` and the range is nonempty. -/
def MultiIndex.inBounds (m : MultiIndex) : Prop :=
  ∀ i, i < m.mDimension →
    m.mLowerBound.getD i 0 ≤ m.mCurrentPos.getD i 0 ∧
    m.mCurrentPos.getD i 0 < m.mUpperBound.getD i 0 ∧
    m.mLowerBound.getD i 0 < m.mUpperBound.getD i 0

instance (m : MultiIndex) : Decidable m.inBounds := by
  unfold MultiIndex.inBounds; infer_instance

/-- A multi-index respects its box whenever its validity flag is set. -/
def MultiIndex.invariant (m : MultiIndex) : Prop :=
  m.mIsValid = true → m.inBounds

instance (m : MultiIndex) : Decidable m.invariant := by
  unfold MultiIndex.invariant; infer_instance

theorem getD_set_self : ∀ (l : List ℤ) (i : ℕ) (a : ℤ), i < l.length →
    (l.set i a).getD i 0 = a
  | _ :: _, 0, _, _ => rfl
  | _ :: xs, i + 1, a, h => getD_set_self xs i a (Nat.lt_of_succ_lt_succ h)

theorem getD_set_other : ∀ (l : List ℤ) (i j : ℕ) (a : ℤ), i ≠ j →
    (l.set i a).getD j 0 = l.getD j 0
  | [], _, _, _, _ => rfl
  | _ :: _, 0, 0, _, h => absurd rfl h
  | _ :: _, 0, _ + 1, _, _ => rfl
  | _ :: _, _ + 1, 0, _, _ => rfl
  | _ :: xs, i + 1, j + 1, a, h =>
    getD_set_other xs i j a (fun hh => h (congrArg Nat.succ hh))

theorem set_getD_out : ∀ (l : List ℤ) (i : ℕ) (a : ℤ), l.length ≤ i →
    (l.set i a).getD i 0 = l.getD i 0
  | [], _, _, _ => rfl
  | _ :: xs, i + 1, a, h => set_getD_out xs i a (Nat.le_of_succ_le_succ h)

/-- Replacing the current position on one axis preserves the box invariant,
provided the new value is inside that axis's range (whenever the axis is
below the dimension and the index is valid). -/
theorem invariant_set_axis (m : MultiIndex) (k : ℕ) (v : ℤ)
    (hm : m.invariant)
    (hv : k < m.mDimension → m.mIsValid = true →
      m.mLowerBound.getD k 0 ≤ v ∧ v < m.mUpperBound.getD k 0) :
    MultiIndex.invariant
      ⟨m.mDimension, m.mLowerBound, m.mUpperBound, m.mCurrentPos.set k v, m.mIsValid⟩ := by
  intro hval i hi
  have hb := hm hval i hi
  show m.mLowerBound.getD i 0 ≤ (m.mCurrentPos.set k v).getD i 0 ∧
    (m.mCurrentPos.set k v).getD i 0 < m.mUpperBound.getD i 0 ∧
    m.mLowerBound.getD i 0 < m.mUpperBound.getD i 0
  by_cases hik : i = k
  · subst hik
    by_cases hl : i < m.mCurrentPos.length
    · rw [getD_set_self m.mCurrentPos i v hl]
      exact ⟨(hv hi hval).1, (hv hi hval).2, hb.2.2⟩
    · rw [set_getD_out m.mCurrentPos i v (Nat.le_of_not_lt hl)]
      exact hb
  · rw [getD_set_other m.mCurrentPos k i v (fun h => hik h.symm)]
    exact hb

theorem incrementFrom_invariant : ∀ (k : ℕ) (m : MultiIndex), m.invariant →
    (MultiIndex.incrementFrom m k).1.invariant
  | 0, _, _ => by
    unfold MultiIndex.incrementFrom
    intro hval
    exact absurd hval (by simp)
  | k + 1, m, hm => by
    unfold MultiIndex.incrementFrom
    split
    · next hlt =>
      exact invariant_set_axis m k _ hm
        (fun hk hval => ⟨le_trans (hm hval k hk).1 (by omega), hlt⟩)
    · next hlt =>
      exact incrementFrom_invariant k _ (invariant_set_axis m k _ hm
        (fun hk hval => ⟨le_refl _, (hm hval k hk).2.2⟩))

/-- Replacing the upper bound on one axis preserves the box invariant,
provided the new value is strictly above that axis's lower bound and
current position. -/
theorem invariant_set_upper (m : MultiIndex) (k : ℕ) (v : ℤ)
    (hm : m.invariant)
    (hv : k < m.mDimension → m.mIsValid = true →
      m.mLowerBound.getD k 0 < v ∧ m.mCurrentPos.getD k 0 < v) :
    MultiIndex.invariant
      ⟨m.mDimension, m.mLowerBound, m.mUpperBound.set k v, m.mCurrentPos, m.mIsValid⟩ := by
  intro hval i hi
  have hb := hm hval i hi
  show m.mLowerBound.getD i 0 ≤ m.mCurrentPos.getD i 0 ∧
    m.mCurrentPos.getD i 0 < (m.mUpperBound.set k v).getD i 0 ∧
    m.mLowerBound.getD i 0 < (m.mUpperBound.set k v).getD i 0
  by_cases hik : i = k
  · subst hik
    by_cases hl : i < m.mUpperBound.length
    · rw [getD_set_self m.mUpperBound i v hl]
      exact ⟨hb.1, (hv hi hval).2, (hv hi hval).1⟩
    · rw [set_getD_out m.mUpperBound i v (Nat.le_of_not_lt hl)]
      exact hb
  · rw [getD_set_other m.mUpperBound k i v (fun h => hik h.symm)]
    exact hb

/-- C10: whenever a multi-index is valid, every axis below the dimension
satisfies `lower ≤ current < upper` (hence `lower < upper`).  The invariant
is established by `init`, which also rejects any axis with `lower ≥ upper`;
it is preserved by `increment`, which clears the validity flag instead of
leaving the box; and it is preserved by `setUpperBoundDynamic`, which rejects
a new upper bound at or below the current position or the lower bound. -/
theorem multiIndex_valid_invariant :
    (∀ m m', MultiIndex.init m = Except.ok m' → m'.invariant) ∧
    (∀ m i, m.mIsValid = false → i < m.mDimension →
      m.mUpperBound.getD i 0 ≤ m.mLowerBound.getD i 0 →
      MultiIndex.init m = Except.error ()) ∧
    (∀ m, m.invariant → (MultiIndex.increment m).1.invariant) ∧
    (∀ m dim ub, ub ≤ m.mLowerBound.getD dim 0 ∨ ub ≤ m.mCurrentPos.getD dim 0 →
      MultiIndex.setUpperBoundDynamic m dim ub = Except.error ()) ∧
    (∀ m dim ub m', m.invariant →
      MultiIndex.setUpperBoundDynamic m dim ub = Except.ok m' → m'.invariant) := by
  refine ⟨?_, ?_, ?_, ?_, ?_⟩
  · intro m m' h
    unfold MultiIndex.init at h
    by_cases hv : m.mIsValid = true
    · rw [if_pos hv] at h
      exact absurd h (by intro hh; cases hh)
    · rw [if_neg hv] at h
      by_cases hall : ((List.range m.mDimension).all
          fun i => decide (m.mLowerBound.getD i 0 < m.mUpperBound.getD i 0)) = true
      · rw [if_pos hall] at h
        cases h
        intro _ i hi
        have hlt : m.mLowerBound.getD i 0 < m.mUpperBound.getD i 0 :=
          of_decide_eq_true (List.all_eq_true.mp hall i (List.mem_range.mpr hi))
        exact ⟨le_refl _, hlt, hlt⟩
      · rw [if_neg hall] at h
        exact absurd h (by intro hh; cases hh)
  · intro m i hv hi hle
    unfold MultiIndex.init
    rw [if_neg (by rw [hv]; exact Bool.false_ne_true)]
    rw [if_neg]
    intro hall
    exact absurd (of_decide_eq_true (List.all_eq_true.mp hall i (List.mem_range.mpr hi)))
      (not_lt.mpr hle)
  · intro m hm
    exact incrementFrom_invariant m.mDimension m hm
  · intro m dim ub h
    unfold MultiIndex.setUpperBoundDynamic
    by_cases h4 : 4 ≤ dim
    · rw [if_pos h4]
    · rw [if_neg h4]
      by_cases hlo : ub ≤ m.mLowerBound.getD dim 0
      · rw [if_pos hlo]
      · rw [if_neg hlo, if_pos]
        rcases h with h | h
        · exact absurd h hlo
        · exact h
  · intro m dim ub m' hm h
    unfold MultiIndex.setUpperBoundDynamic at h
    by_cases h4 : 4 ≤ dim
    · rw [if_pos h4] at h
      exact absurd h (by intro hh; cases hh)
    · rw [if_neg h4] at h
      by_cases hlo : ub ≤ m.mLowerBound.getD dim 0
      · rw [if_pos hlo] at h
        exact absurd h (by intro hh; cases hh)
      · rw [if_neg hlo] at h
        by_cases hcur : ub ≤ m.mCurrentPos.getD dim 0
        · rw [if_pos hcur] at h
          exact absurd h (by intro hh; cases hh)
        · rw [if_neg hcur] at h
          cases h
          exact invariant_set_upper m dim ub hm
            (fun _ _ => ⟨not_le.mp hlo, not_le.mp hcur⟩)

/-- Concrete 2-dimensional multi-index over the box `[0,2) × [0,3)`,
positioned at `(0, 2)` so that the next increment carries. -/
def miSample : MultiIndex :=
  ⟨2, [0, 0, 0, 0], [2, 3, 0, 0], [0, 2, 0, 0], true⟩

/-- The same box before `init`: current position unset, validity flag clear. -/
def miFresh : MultiIndex :=
  ⟨2, [0, 0, 0, 0], [2, 3, 0, 0], [7, 7, 0, 0], false⟩

/-- Witness for C10: the theorem applied at concrete inputs.  `init`
establishes the invariant on a fresh index, a degenerate box is rejected,
`increment` preserves the invariant across a carry, and
`setUpperBoundDynamic` rejects a too-small bound and preserves the
invariant on success. -/
theorem multiIndex_valid_invariant_witness :
    (⟨2, [0, 0, 0, 0], [2, 3, 0, 0], [0, 0, 0, 0], true⟩ : MultiIndex).invariant ∧
    MultiIndex.init ⟨2, [0, 0, 0, 0], [0, 3, 0, 0], [7, 7, 0, 0], false⟩
      = Except.error () ∧
    (MultiIndex.increment miSample).1.invariant ∧
    MultiIndex.setUpperBoundDynamic miSample 1 2 = Except.error () ∧
    (⟨2, [0, 0, 0, 0], [2, 4, 0, 0], [0, 2, 0, 0], true⟩ : MultiIndex).invariant := by
  refine ⟨?_, ?_, ?_, ?_, ?_⟩
  · exact multiIndex_valid_invariant.1 miFresh _ rfl
  · exact multiIndex_valid_invariant.2.1 _ 0 (by decide) (by decide) (by decide)
  · exact multiIndex_valid_invariant.2.2.1 miSample (by decide)
  · exact multiIndex_valid_invariant.2.2.2.1 miSample 1 2 (Or.inr (by decide))
  · exact multiIndex_valid_invariant.2.2.2.2 miSample 1 4 _ (by decide) rfl

/-!
## N-dimensional grid (src/common/dynamic_grid.hpp, dynamic_grid_base.cpp)

`DynamicGrid<double>` (the `default_grid` stored by `Potential`) is
modelled by its extents, its cell buffer and its access mode.  Cells are
rationals standing for the stored 8-byte `double` values: the code moves
them around byte-for-byte, so value identity in the model is byte identity
in the program.  Construction zero-initialises `∏ extents` cells.
-/

/-- Access modes of `DynamicGridBase` (`TransformationType` in
dynamic_grid_base.hpp): identity, FFT-centred, periodic. -/
inductive TransformationType
  | IDENTITY
  | FFT_INDEX
  | PERIODIC
deriving DecidableEq

/-- Model of `DynamicGrid<double>`: extents, cell buffer, access mode. -/
structure DynamicGrid where
  mExtents : List ℕ
  mCells : List ℚ
  mTrafoType : TransformationType
deriving DecidableEq

/-- Total cell count `∏ extents` (`safe_product` in the sources; natural
numbers in the model need no overflow check). -/
def prodExtents (sizes : List ℕ) : ℕ := sizes.foldl (· * ·) 1

/-- `DynamicGridBase::setAccessMode`: dispatches through `getIndexFn`,
which throws `logic_error` unless the dimension is between 1 and 6.  No
property of the extents other than their number is inspected — in
particular there is no parity check. -/
def DynamicGrid.setAccessMode (g : DynamicGrid) (ty : TransformationType) :
    Except Unit DynamicGrid :=
  if 1 ≤ g.mExtents.length ∧ g.mExtents.length ≤ 6 then
    Except.ok { g with mTrafoType := ty }
  else Except.error ()

/-- The `DynamicGrid(extents, indexing)` constructor: allocate a
zero-initialised buffer of `∏ extents` cells, then `setAccessMode` (via the
`DynamicGridBase` constructor). -/
def mkDynamicGrid (sizes : List ℕ) (indexing : TransformationType) :
    Except Unit DynamicGrid :=
  DynamicGrid.setAccessMode
    ⟨sizes, List.replicate (prodExtents sizes) 0, TransformationType.IDENTITY⟩ indexing

/-- Counterexample to C6: constructing a grid in FFT-centred mode with the
odd extent 3 succeeds; no `InvalidShape` (or any other) error is raised.
The only odd-extent rejection in the sources is in the potential
generator's `discretize`, not in grid construction. -/
theorem mkDynamicGrid_fft_odd_ok :
    mkDynamicGrid [3] TransformationType.FFT_INDEX =
      Except.ok ⟨[3], [0, 0, 0], TransformationType.FFT_INDEX⟩ := by
  rfl

/-- C6 amended: constructing a grid in FFT-centred mode (or switching an
existing grid to it) succeeds precisely when the dimension is between 1
and 6; the parity of the extents is never examined, so odd-extent
FFT-centred grids are constructed without error. -/
theorem mkDynamicGrid_fft_no_parity_check (sizes : List ℕ) (g : DynamicGrid)
    (h1 : 1 ≤ sizes.length) (h6 : sizes.length ≤ 6)
    (hg1 : 1 ≤ g.mExtents.length) (hg6 : g.mExtents.length ≤ 6) :
    mkDynamicGrid sizes TransformationType.FFT_INDEX =
      Except.ok ⟨sizes, List.replicate (prodExtents sizes) 0,
        TransformationType.FFT_INDEX⟩ ∧
    DynamicGrid.setAccessMode g TransformationType.FFT_INDEX =
      Except.ok { g with mTrafoType := TransformationType.FFT_INDEX } := by
  constructor
  · unfold mkDynamicGrid DynamicGrid.setAccessMode
    rw [if_pos]
    exact ⟨h1, h6⟩
  · unfold DynamicGrid.setAccessMode
    rw [if_pos]
    exact ⟨hg1, hg6⟩

/-- Witness for the amended C6 at the odd extent 3 (same-dimension grid in
periodic mode switched to FFT mode). -/
theorem mkDynamicGrid_fft_no_parity_check_witness :
    mkDynamicGrid [3] TransformationType.FFT_INDEX =
      Except.ok ⟨[3], List.replicate (prodExtents [3]) 0,
        TransformationType.FFT_INDEX⟩ ∧
    DynamicGrid.setAccessMode ⟨[5], List.replicate 5 0, TransformationType.PERIODIC⟩
        TransformationType.FFT_INDEX =
      Except.ok ⟨[5], List.replicate 5 0, TransformationType.FFT_INDEX⟩ :=
  mkDynamicGrid_fft_no_parity_check [3]
    ⟨[5], List.replicate 5 0, TransformationType.PERIODIC⟩
    (by decide) (by decide) (by decide) (by decide)

/-!
## Potential container (src/common/potential.hpp, potential.cpp)

`Potential` maps `(quantity name, derivative multi-index)` keys to grids
and carries the generation metadata.  `std::map` is modelled as an
association list; `Potential.wfData` requires the key list to be
duplicate-free, which the real map guarantees.  Names are byte lists
(`std::string`), derivative indices are `int` lists.
-/

/-- Key type of the potential's grid map (`Potential::IndexType`). -/
structure PotIndexType where
  name : List ℕ
  derivations : List ℤ
deriving DecidableEq

/-- Model of `Potential`: metadata plus the grid map as an association
list.  `mSeed` is value-initialised here although the C++ member is left
indeterminate by the constructors; every reachable read happens after
`setCreationInfo`. -/
structure Potential where
  mDimension : ℕ
  mSeed : ℕ
  mExtents : List ℕ
  mSupport : List ℚ
  mStrength : ℚ
  mCorrelationLength : ℚ
  mPotgenVersion : ℕ
  mData : List (PotIndexType × DynamicGrid)
deriving DecidableEq

/-- The `Potential(extents, support, strength)` constructor: dimension is
the extents count, correlation length defaults to −1, version tag to 3. -/
def mkPotential (extents : List ℕ) (support : List ℚ) (strength : ℚ) : Potential :=
  ⟨extents.length, 0, extents, support, strength, -1, 3, []⟩

/-- `Potential::setCreationInfo`. -/
def Potential.setCreationInfo (p : Potential) (seed : ℕ) (version : ℕ)
    (corrlength : ℚ) : Potential :=
  { p with mSeed := seed, mPotgenVersion := version, mCorrelationLength := corrlength }

/-- `std::map::operator[] = value`: replace the entry of an existing key in
place, or append a new entry. -/
def insertData : List (PotIndexType × DynamicGrid) → PotIndexType → DynamicGrid →
    List (PotIndexType × DynamicGrid)
  | [], key, g => [(key, g)]
  | (key', g') :: rest, key, g =>
    if key' = key then (key, g) :: rest else (key', g') :: insertData rest key g

/-- `Potential::setDerivative`: throws when the derivative vector length or
the grid dimension disagrees with the potential's dimension, otherwise
stores the grid under `(name, deriv)`.  Neither the grid's extents nor the
sign of the derivative components is examined. -/
def Potential.setDerivative (p : Potential) (deriv : List ℤ) (data : DynamicGrid)
    (name : List ℕ) : Except Unit Potential :=
  if deriv.length ≠ p.mDimension then Except.error ()
  else if data.mExtents.length ≠ p.mDimension then Except.error ()
  else Except.ok { p with mData := insertData p.mData ⟨name, deriv⟩ data }

/-- `Potential::setPotential`: the potential itself is the all-zero
derivative. -/
def Potential.setPotential (p : Potential) (data : DynamicGrid) (name : List ℕ) :
    Except Unit Potential :=
  p.setDerivative (List.replicate p.mDimension 0) data name

/-- The invariant that the code actually maintains on the grid map: every
derivative key has the potential's dimension as its length, and every
stored grid has that dimension.  (Extents equality with the potential and
non-negativity of the components are claimed by the specification but not
checked by the code.) -/
def Potential.dimInvariant (p : Potential) : Prop :=
  ∀ e ∈ p.mData, e.1.derivations.length = p.mDimension ∧
    e.2.mExtents.length = p.mDimension

instance (p : Potential) : Decidable p.dimInvariant := by
  unfold Potential.dimInvariant; exact List.decidableBAll _ _

theorem insertData_forall {P : PotIndexType × DynamicGrid → Prop}
    (l : List (PotIndexType × DynamicGrid)) (key : PotIndexType) (g : DynamicGrid)
    (hl : ∀ e ∈ l, P e) (hkg : P (key, g)) :
    ∀ e ∈ insertData l key g, P e := by
  induction l with
  | nil =>
    intro e he
    simp only [insertData, List.mem_singleton] at he
    exact he ▸ hkg
  | cons hd tl ih =>
    intro e he
    unfold insertData at he
    by_cases hk : hd.1 = key
    · rw [if_pos hk] at he
      rcases List.mem_cons.mp he with h | h
      · exact h ▸ hkg
      · exact hl e (List.mem_cons_of_mem _ h)
    · rw [if_neg hk] at he
      rcases List.mem_cons.mp he with h | h
      · exact h ▸ hl hd (List.mem_cons_self _ _)
      · exact ih (fun e he => hl e (List.mem_cons_of_mem _ he)) e h

/-- Counterexample to C7: on a 2-dimensional potential with extents
`[4, 4]`, `setDerivative` accepts a derivative index with a negative
component together with a grid of extents `[2, 2]` — the stored entry
violates both the extents equality and the non-negativity that the claim
says are rejected. -/
theorem setDerivative_accepts_invalid :
    Potential.setDerivative (mkPotential [4, 4] [1, 1] 1) [-1, 0]
        ⟨[2, 2], List.replicate 4 0, TransformationType.IDENTITY⟩ [112] =
      Except.ok ⟨2, 0, [4, 4], [1, 1], 1, -1, 3,
        [(⟨[112], [-1, 0]⟩, ⟨[2, 2], List.replicate 4 0, TransformationType.IDENTITY⟩)]⟩ ∧
    ¬ ([(-1 : ℤ), 0].all fun d => decide (0 ≤ d)) ∧
    [2, 2] ≠ (mkPotential [4, 4] [1, 1] 1).mExtents := by
  refine ⟨rfl, by decide, by decide⟩

/-- C7 amended: after any sequence of successful `setPotential` /
`setDerivative` calls, every stored grid has dimension `D` and every
stored derivative index vector has length `D`; `setDerivative` rejects
exactly the arguments violating these two conditions — it does not check
the grid's extents against the potential's, nor the sign of the
derivative components. -/
theorem setDerivative_dim_invariant (p q : Potential) (deriv : List ℤ)
    (data : DynamicGrid) (name : List ℕ) (hp : p.dimInvariant) :
    (p.setDerivative deriv data name = Except.ok q → q.dimInvariant) ∧
    (p.setPotential data name = Except.ok q → q.dimInvariant) ∧
    ((∃ r, p.setDerivative deriv data name = Except.ok r) ↔
      (deriv.length = p.mDimension ∧ data.mExtents.length = p.mDimension)) := by
  refine ⟨?_, ?_, ?_⟩
  · intro h
    unfold Potential.setDerivative at h
    by_cases h1 : deriv.length ≠ p.mDimension
    · rw [if_pos h1] at h; exact absurd h (by intro hh; cases hh)
    · rw [if_neg h1] at h
      by_cases h2 : data.mExtents.length ≠ p.mDimension
      · rw [if_pos h2] at h; exact absurd h (by intro hh; cases hh)
      · rw [if_neg h2] at h
        cases h
        exact insertData_forall p.mData _ data hp
          ⟨not_ne_iff.mp h1, not_ne_iff.mp h2⟩
  · intro h
    unfold Potential.setPotential Potential.setDerivative at h
    by_cases h1 : (List.replicate p.mDimension (0 : ℤ)).length ≠ p.mDimension
    · rw [if_pos h1] at h; exact absurd h (by intro hh; cases hh)
    · rw [if_neg h1] at h
      by_cases h2 : data.mExtents.length ≠ p.mDimension
      · rw [if_pos h2] at h; exact absurd h (by intro hh; cases hh)
      · rw [if_neg h2] at h
        cases h
        exact insertData_forall p.mData _ data hp
          ⟨not_ne_iff.mp h1, not_ne_iff.mp h2⟩
  · constructor
    · rintro ⟨r, hr⟩
      unfold Potential.setDerivative at hr
      by_cases h1 : deriv.length ≠ p.mDimension
      · rw [if_pos h1] at hr; exact absurd hr (by intro hh; cases hh)
      · rw [if_neg h1] at hr
        by_cases h2 : data.mExtents.length ≠ p.mDimension
        · rw [if_pos h2] at hr; exact absurd hr (by intro hh; cases hh)
        · exact ⟨not_ne_iff.mp h1, not_ne_iff.mp h2⟩
    · rintro ⟨h1, h2⟩
      refine ⟨{ p with mData := insertData p.mData ⟨name, deriv⟩ data }, ?_⟩
      unfold Potential.setDerivative
      rw [if_neg (not_ne_iff.mpr h1), if_neg (not_ne_iff.mpr h2)]

/-- Witness for the amended C7: the invariant after storing the (invalidly
shaped, per the original claim) entry on a concrete potential, and the
success criterion at the same inputs. -/
theorem setDerivative_dim_invariant_witness :
    (Potential.setDerivative (mkPotential [4, 4] [1, 1] 1) [-1, 0]
        ⟨[2, 2], List.replicate 4 0, TransformationType.IDENTITY⟩ [112] =
          Except.ok ⟨2, 0, [4, 4], [1, 1], 1, -1, 3,
            [(⟨[112], [-1, 0]⟩,
              ⟨[2, 2], List.replicate 4 0, TransformationType.IDENTITY⟩)]⟩ →
      Potential.dimInvariant ⟨2, 0, [4, 4], [1, 1], 1, -1, 3,
        [(⟨[112], [-1, 0]⟩,
          ⟨[2, 2], List.replicate 4 0, TransformationType.IDENTITY⟩)]⟩) ∧
    ((∃ r, Potential.setDerivative (mkPotential [4, 4] [1, 1] 1) [-1, 0]
        ⟨[2, 2], List.replicate 4 0, TransformationType.IDENTITY⟩ [112] =
          Except.ok r) ↔
      ([(-1 : ℤ), 0].length = 2 ∧ [2, 2].length = 2)) :=
  ⟨(setDerivative_dim_invariant (mkPotential [4, 4] [1, 1] 1) _ [-1, 0]
      ⟨[2, 2], List.replicate 4 0, TransformationType.IDENTITY⟩ [112] (by decide)).1,
   (setDerivative_dim_invariant (mkPotential [4, 4] [1, 1] 1)
      (mkPotential [4, 4] [1, 1] 1) [-1, 0]
      ⟨[2, 2], List.replicate 4 0, TransformationType.IDENTITY⟩ [112] (by decide)).2.2⟩

/-!
## Binary file model (src/common/fileIO.hpp, grid_storage.cpp, dynamic_grid_base.cpp)

A binary stream is modelled as a list of write-primitive tokens: each
token is the block of bytes produced by one write call of the sources
(`writeInteger` = 8 little-endian bytes, `writeFloat` = 8 bytes of a
`double`, a counted raw block, a NUL-terminated C string, or the ASCII
decimal written for the human-readable comment length).  Reading consumes
the leading token of the matching kind and fails otherwise, mirroring a
reader that is only ever applied to streams produced by these writers.
Byte-identity of two streams is equality of the token lists.
-/

/-- One write primitive of the binary file format. -/
inductive FileTok
  | byte (b : ℕ)
  | u64 (n : ℕ)
  | f64 (x : ℚ)
  | asciiNum (n : ℕ)
  | raw (bs : List ℕ)
  | cells (vs : List ℚ)
  | cstr (s : List ℕ)
deriving DecidableEq

/-- Read one raw byte. -/
def readByteTok : List FileTok → Except Unit (ℕ × List FileTok)
  | FileTok.byte b :: rest => Except.ok (b, rest)
  | _ => Except.error ()

/-- `readInteger`: read a 64-bit unsigned integer. -/
def readU64Tok : List FileTok → Except Unit (ℕ × List FileTok)
  | FileTok.u64 n :: rest => Except.ok (n, rest)
  | _ => Except.error ()

/-- `readFloat`: read a 64-bit float. -/
def readF64Tok : List FileTok → Except Unit (ℚ × List FileTok)
  | FileTok.f64 x :: rest => Except.ok (x, rest)
  | _ => Except.error ()

/-- `file >> hs`: skip whitespace and parse an ASCII decimal. -/
def readAsciiNumTok : List FileTok → Except Unit (ℕ × List FileTok)
  | FileTok.asciiNum n :: rest => Except.ok (n, rest)
  | _ => Except.error ()

/-- Read a counted block of raw bytes. -/
def readRawTok : List FileTok → Except Unit (List ℕ × List FileTok)
  | FileTok.raw bs :: rest => Except.ok (bs, rest)
  | _ => Except.error ()

/-- Read the raw cell block of a grid dump. -/
def readCellsTok : List FileTok → Except Unit (List ℚ × List FileTok)
  | FileTok.cells vs :: rest => Except.ok (vs, rest)
  | _ => Except.error ()

/-- `std::getline(in, type, '\0')`: read a NUL-terminated C string. -/
def readCStrTok : List FileTok → Except Unit (List ℕ × List FileTok)
  | FileTok.cstr s :: rest => Except.ok (s, rest)
  | _ => Except.error ()

/-- Read `n` 64-bit unsigned integers. -/
def readU64ListTok : ℕ → List FileTok → Except Unit (List ℕ × List FileTok)
  | 0, ts => Except.ok ([], ts)
  | n + 1, ts => do
    let (x, ts) ← readU64Tok ts
    let (xs, ts) ← readU64ListTok n ts
    Except.ok (x :: xs, ts)

/-- Read `n` 64-bit floats. -/
def readF64ListTok : ℕ → List FileTok → Except Unit (List ℚ × List FileTok)
  | 0, ts => Except.ok ([], ts)
  | n + 1, ts => do
    let (x, ts) ← readF64Tok ts
    let (xs, ts) ← readF64ListTok n ts
    Except.ok (x :: xs, ts)

theorem except_bind_ok {α β : Type} (a : α) (f : α → Except Unit β) :
    (Except.ok a >>= f) = f a := rfl

@[simp] theorem readByteTok_cons (b : ℕ) (ts : List FileTok) :
    readByteTok (FileTok.byte b :: ts) = Except.ok (b, ts) := rfl

@[simp] theorem readU64Tok_cons (n : ℕ) (ts : List FileTok) :
    readU64Tok (FileTok.u64 n :: ts) = Except.ok (n, ts) := rfl

@[simp] theorem readF64Tok_cons (x : ℚ) (ts : List FileTok) :
    readF64Tok (FileTok.f64 x :: ts) = Except.ok (x, ts) := rfl

@[simp] theorem readAsciiNumTok_cons (n : ℕ) (ts : List FileTok) :
    readAsciiNumTok (FileTok.asciiNum n :: ts) = Except.ok (n, ts) := rfl

@[simp] theorem readRawTok_cons (bs : List ℕ) (ts : List FileTok) :
    readRawTok (FileTok.raw bs :: ts) = Except.ok (bs, ts) := rfl

@[simp] theorem readCellsTok_cons (vs : List ℚ) (ts : List FileTok) :
    readCellsTok (FileTok.cells vs :: ts) = Except.ok (vs, ts) := rfl

@[simp] theorem readCStrTok_cons (s : List ℕ) (ts : List FileTok) :
    readCStrTok (FileTok.cstr s :: ts) = Except.ok (s, ts) := rfl

theorem readU64ListTok_map (xs : List ℕ) (rest : List FileTok) :
    readU64ListTok xs.length (xs.map FileTok.u64 ++ rest) = Except.ok (xs, rest) := by
  induction xs with
  | nil => rfl
  | cons x xs ih =>
    calc readU64ListTok (x :: xs).length ((x :: xs).map FileTok.u64 ++ rest)
        = (readU64ListTok xs.length (xs.map FileTok.u64 ++ rest) >>=
            fun p => Except.ok (x :: p.1, p.2)) := rfl
      _ = (Except.ok (xs, rest) >>= fun p => Except.ok (x :: p.1, p.2)) := by rw [ih]
      _ = Except.ok (x :: xs, rest) := rfl

theorem readF64ListTok_map (xs : List ℚ) (rest : List FileTok) :
    readF64ListTok xs.length (xs.map FileTok.f64 ++ rest) = Except.ok (xs, rest) := by
  induction xs with
  | nil => rfl
  | cons x xs ih =>
    calc readF64ListTok (x :: xs).length ((x :: xs).map FileTok.f64 ++ rest)
        = (readF64ListTok xs.length (xs.map FileTok.f64 ++ rest) >>=
            fun p => Except.ok (x :: p.1, p.2)) := rfl
      _ = (Except.ok (xs, rest) >>= fun p => Except.ok (x :: p.1, p.2)) := by rw [ih]
      _ = Except.ok (x :: xs, rest) := rfl

/-- `typeid(double).name()` under the GCC ABI: the one-character string
`"d"` (ASCII 100). -/
def doubleTypeName : List ℕ := [100]

/-- `DynamicGridBase::dump` followed by `GridStorage::dump`: the tag byte
`'g'` (103), the 64-bit dimension, the extents, the NUL-terminated element
type name, the 64-bit cell count, and the raw cell bytes.  The access mode
is not written. -/
def DynamicGrid.dump (g : DynamicGrid) : List FileTok :=
  FileTok.byte 103 :: FileTok.u64 g.mExtents.length ::
    (g.mExtents.map FileTok.u64 ++
      [FileTok.cstr doubleTypeName, FileTok.u64 g.mCells.length,
        FileTok.cells g.mCells])

/-- `DynamicGrid<double>::load`: read the tag byte and the extents
(`load_info`), construct a fresh grid with IDENTITY access mode (whose
`setAccessMode` requires a dimension between 1 and 6), then
`GridStorage::load` — the type name must equal the expected one and the
cell count must equal the constructed size, after which the raw cells are
read.  `in.read` consumes exactly `count` cells; in the token model the
writer emits the block as one token, so the block length must match. -/
def DynamicGrid.load (ts : List FileTok) : Except Unit (DynamicGrid × List FileTok) := do
  let (tag, ts) ← readByteTok ts
  if tag = 103 then do
    let (dim, ts) ← readU64Tok ts
    let (extents, ts) ← readU64ListTok dim ts
    if 1 ≤ extents.length ∧ extents.length ≤ 6 then do
      let (tname, ts) ← readCStrTok ts
      let (count, ts) ← readU64Tok ts
      if tname = doubleTypeName ∧ count = prodExtents extents then do
        let (vs, ts) ← readCellsTok ts
        if vs.length = count then
          Except.ok (⟨extents, vs, TransformationType.IDENTITY⟩, ts)
        else Except.error ()
      else Except.error ()
    else Except.error ()
  else Except.error ()

/-- Wellformedness of a grid as produced by the constructors: the buffer
holds `∏ extents` cells and the dimension admits an index function. -/
def DynamicGrid.wf (g : DynamicGrid) : Prop :=
  g.mCells.length = prodExtents g.mExtents ∧
    1 ≤ g.mExtents.length ∧ g.mExtents.length ≤ 6

instance (g : DynamicGrid) : Decidable g.wf := by
  unfold DynamicGrid.wf; infer_instance

theorem load_dump_aux (E : List ℕ) (C : List ℚ) (ty : TransformationType)
    (rest : List FileTok) (hC : C.length = prodExtents E)
    (h1 : 1 ≤ E.length) (h6 : E.length ≤ 6) :
    DynamicGrid.load (DynamicGrid.dump ⟨E, C, ty⟩ ++ rest) =
      Except.ok (⟨E, C, TransformationType.IDENTITY⟩, rest) := by
  have step : DynamicGrid.load (DynamicGrid.dump ⟨E, C, ty⟩ ++ rest) =
      (readU64ListTok E.length ((E.map FileTok.u64 ++
          [FileTok.cstr doubleTypeName, FileTok.u64 C.length,
            FileTok.cells C]) ++ rest) >>=
        fun q =>
          if 1 ≤ q.1.length ∧ q.1.length ≤ 6 then
            (readCStrTok q.2 >>= fun t =>
              (readU64Tok t.2 >>= fun c =>
                if t.1 = doubleTypeName ∧ c.1 = prodExtents q.1 then
                  (readCellsTok c.2 >>= fun v =>
                    if v.1.length = c.1 then
                      Except.ok ((⟨q.1, v.1, TransformationType.IDENTITY⟩ : DynamicGrid), v.2)
                    else Except.error ())
                else Except.error ()))
          else Except.error ()) := rfl
  rw [step, List.append_assoc]
  simp only [List.cons_append, List.nil_append]
  rw [readU64ListTok_map, except_bind_ok]
  dsimp only
  rw [if_pos ⟨h1, h6⟩, readCStrTok_cons, except_bind_ok]
  dsimp only
  rw [readU64Tok_cons, except_bind_ok]
  dsimp only
  rw [if_pos ⟨rfl, hC⟩, readCellsTok_cons, except_bind_ok]
  dsimp only
  rw [if_pos rfl]

/-- C9: the binary grid dump has no access-mode field — dumping a grid is
independent of its mode — and `DynamicGrid::load` always constructs the
result with IDENTITY access mode, so a dump/load round trip reproduces the
extents and the cell bytes but yields IDENTITY mode whatever mode the
dumped grid had. -/
theorem dynamicGrid_load_dump_identity (g : DynamicGrid) (rest : List FileTok)
    (h : g.wf) :
    DynamicGrid.load (g.dump ++ rest) =
      Except.ok (⟨g.mExtents, g.mCells, TransformationType.IDENTITY⟩, rest) ∧
    (∀ ty, DynamicGrid.dump ⟨g.mExtents, g.mCells, ty⟩ = g.dump) := by
  obtain ⟨E, C, ty⟩ := g
  exact ⟨load_dump_aux E C ty rest h.1 h.2.1 h.2.2, fun _ => rfl⟩

/-- Witness for C9: a concrete periodic-mode grid round-trips to the same
extents and cells with IDENTITY mode. -/
theorem dynamicGrid_load_dump_identity_witness :
    DynamicGrid.load
        (DynamicGrid.dump ⟨[2, 2], [1, 2, 3, 4], TransformationType.PERIODIC⟩ ++ []) =
      Except.ok (⟨[2, 2], [1, 2, 3, 4], TransformationType.IDENTITY⟩, []) ∧
    (∀ ty, DynamicGrid.dump ⟨[2, 2], [1, 2, 3, 4], ty⟩ =
      DynamicGrid.dump ⟨[2, 2], [1, 2, 3, 4], TransformationType.PERIODIC⟩) :=
  dynamicGrid_load_dump_identity ⟨[2, 2], [1, 2, 3, 4], TransformationType.PERIODIC⟩
    [] (by decide)

/-!
## Potential serialisation (src/common/potential.cpp, fileIO.hpp)

`writeInteger` stores any integral value as a 64-bit unsigned integer; for
the signed derivative components the int-to-uint64 conversion is the
two's-complement wrap `d mod 2^64`.  On reading, `index[i] =
readInteger(file)` converts the `uint64_t` back to a 32-bit `int`; the
reference compiler performs the modular two's-complement wrap modelled by
`intOfU64`.
-/

/-- The int-to-`uint64_t` conversion applied by `writeInteger`. -/
def u64OfInt (d : ℤ) : ℕ := (d % (2 ^ 64 : ℤ)).toNat

/-- The `uint64_t`-to-int conversion applied when reading a derivative
component (32-bit two's-complement wrap). -/
def intOfU64 (n : ℕ) : ℤ :=
  if n % 2 ^ 32 < 2 ^ 31 then ((n % 2 ^ 32 : ℕ) : ℤ)
  else ((n % 2 ^ 32 : ℕ) : ℤ) - 2 ^ 32

theorem intOfU64_u64OfInt (d : ℤ) (h1 : -(2 ^ 31) ≤ d) (h2 : d < 2 ^ 31) :
    intOfU64 (u64OfInt d) = d := by
  unfold intOfU64 u64OfInt
  have e64 : (2 : ℤ) ^ 64 = 18446744073709551616 := by norm_num
  have e32 : (2 : ℕ) ^ 32 = 4294967296 := by norm_num
  have e31 : (2 : ℕ) ^ 31 = 2147483648 := by norm_num
  have f32 : (2 : ℤ) ^ 32 = 4294967296 := by norm_num
  have f31 : (2 : ℤ) ^ 31 = 2147483648 := by norm_num
  rw [e64, e32, e31, f32] at *
  rw [f31] at h1 h2
  split <;> omega

/-- Read `n` 64-bit integers, converting each to `int`
(`index[i] = readInteger(file)` in `Potential::readFromFile`). -/
def readI64ListTok : ℕ → List FileTok → Except Unit (List ℤ × List FileTok)
  | 0, ts => Except.ok ([], ts)
  | n + 1, ts => do
    let (x, ts) ← readU64Tok ts
    let (xs, ts) ← readI64ListTok n ts
    Except.ok (intOfU64 x :: xs, ts)

theorem readI64ListTok_map (xs : List ℤ) (n : ℕ) (rest : List FileTok)
    (hn : n = xs.length) (hb : ∀ d ∈ xs, -(2 ^ 31) ≤ d ∧ d < 2 ^ 31) :
    readI64ListTok n (xs.map (fun d => FileTok.u64 (u64OfInt d)) ++ rest) =
      Except.ok (xs, rest) := by
  subst hn
  induction xs with
  | nil => rfl
  | cons x xs ih =>
    calc readI64ListTok (x :: xs).length
          ((x :: xs).map (fun d => FileTok.u64 (u64OfInt d)) ++ rest)
        = (readI64ListTok xs.length (xs.map (fun d => FileTok.u64 (u64OfInt d)) ++ rest)
            >>= fun p => Except.ok (intOfU64 (u64OfInt x) :: p.1, p.2)) := rfl
      _ = Except.ok (intOfU64 (u64OfInt x) :: xs, rest) := by
          rw [ih (fun d hd => hb d (List.mem_cons_of_mem _ hd))]; rfl
      _ = Except.ok (x :: xs, rest) := by
          rw [intOfU64_u64OfInt x (hb x (List.mem_cons_self _ _)).1
            (hb x (List.mem_cons_self _ _)).2]

theorem readU64ListTok_len (xs : List ℕ) (n : ℕ) (rest : List FileTok)
    (hn : n = xs.length) :
    readU64ListTok n (xs.map FileTok.u64 ++ rest) = Except.ok (xs, rest) := by
  subst hn; exact readU64ListTok_map xs rest

theorem readF64ListTok_len (xs : List ℚ) (n : ℕ) (rest : List FileTok)
    (hn : n = xs.length) :
    readF64ListTok n (xs.map FileTok.f64 ++ rest) = Except.ok (xs, rest) := by
  subst hn; exact readF64ListTok_map xs rest

/-- A grid as `DynamicGrid::load` reconstructs it: same extents and cells,
IDENTITY access mode. -/
def DynamicGrid.asLoaded (g : DynamicGrid) : DynamicGrid :=
  ⟨g.mExtents, g.mCells, TransformationType.IDENTITY⟩

theorem load_dump_wf (g : DynamicGrid) (rest : List FileTok) (h : g.wf) :
    DynamicGrid.load (g.dump ++ rest) = Except.ok (g.asLoaded, rest) := by
  obtain ⟨E, C, ty⟩ := g
  exact load_dump_aux E C ty rest h.1 h.2.1 h.2.2

/-- The bytes one `mData` entry contributes to the file: 64-bit name
length, the name bytes, the derivative components as 64-bit integers, then
the grid dump.  (The writer loops the component writes up to the
potential's dimension, which equals the vector length for every stored
entry.) -/
def entryTokens (e : PotIndexType × DynamicGrid) : List FileTok :=
  FileTok.u64 e.1.name.length :: FileTok.raw e.1.name ::
    (e.1.derivations.map (fun d => FileTok.u64 (u64OfInt d)) ++ e.2.dump)

/-- The human-readable comment block written at the start of the file.
Its exact text (metadata rendered through a `stringstream`) is free-form
and skipped unparsed by the reader via the preceding length; the model
keeps a representative byte rendering of the seed, since only the length
is ever consumed. -/
def humanInfo (p : Potential) : List ℕ :=
  (Nat.toDigits 10 p.mSeed).map Char.toNat

/-- `Potential::writeToFile`: the magic bytes `bpot5`, the length-prefixed
human-readable comment, then dimension, support values, extents, seed,
generator version, grid count, correlation length, strength, and one
record per stored grid. -/
def Potential.writeToFile (p : Potential) : List FileTok :=
  [FileTok.byte 98, FileTok.byte 112, FileTok.byte 111, FileTok.byte 116,
    FileTok.byte 53, FileTok.asciiNum (humanInfo p).length,
    FileTok.raw (humanInfo p), FileTok.u64 p.mDimension] ++
  p.mSupport.map FileTok.f64 ++
  p.mExtents.map FileTok.u64 ++
  [FileTok.u64 p.mSeed, FileTok.u64 p.mPotgenVersion, FileTok.u64 p.mData.length,
    FileTok.f64 p.mCorrelationLength, FileTok.f64 p.mStrength] ++
  (p.mData.map entryTokens).flatten

/-- The grid-record loop of `Potential::readFromFile`: name length, name
bytes (read one `file.get()` per byte, so the block length must match),
the derivative components, the grid dump, then `setDerivative`. -/
def readGridEntries (dimension : ℕ) : ℕ → Potential → List FileTok →
    Except Unit (Potential × List FileTok)
  | 0, pot, ts => Except.ok (pot, ts)
  | n + 1, pot, ts => do
    let (namelen, ts) ← readU64Tok ts
    let (name, ts) ← readRawTok ts
    if name.length = namelen then do
      let (index, ts) ← readI64ListTok dimension ts
      let (grid, ts) ← DynamicGrid.load ts
      let pot2 ← pot.setDerivative index grid name
      readGridEntries dimension n pot2 ts
    else Except.error ()

/-- `Potential::readFromFile`: check the magic bytes, skip the
human-readable block through its ASCII length, read the metadata in the
order the writer emitted it, construct the potential and read the grid
records. -/
def Potential.readFromFile (ts : List FileTok) :
    Except Unit (Potential × List FileTok) := do
  let (b1, ts) ← readByteTok ts
  let (b2, ts) ← readByteTok ts
  let (b3, ts) ← readByteTok ts
  let (b4, ts) ← readByteTok ts
  let (b5, ts) ← readByteTok ts
  if b1 = 98 ∧ b2 = 112 ∧ b3 = 111 ∧ b4 = 116 ∧ b5 = 53 then do
    let (hs, ts) ← readAsciiNumTok ts
    let (blk, ts) ← readRawTok ts
    if blk.length = hs then do
      let (dimension, ts) ← readU64Tok ts
      let (support, ts) ← readF64ListTok dimension ts
      let (extents, ts) ← readU64ListTok dimension ts
      let (seed, ts) ← readU64Tok ts
      let (potgen, ts) ← readU64Tok ts
      let (gridcount, ts) ← readU64Tok ts
      let (corrlength, ts) ← readF64Tok ts
      let (strength, ts) ← readF64Tok ts
      readGridEntries dimension gridcount
        ((mkPotential extents support strength).setCreationInfo seed potgen corrlength)
        ts
    else Except.error ()
  else Except.error ()

/-- A potential whose stored grids carry the IDENTITY access mode that
`DynamicGrid::load` assigns; all metadata, keys and cells are unchanged. -/
def Potential.stripModes (p : Potential) : Potential :=
  { p with mData := p.mData.map fun e => (e.1, e.2.asLoaded) }

/-- Wellformedness of an in-memory potential as maintained by the
constructors and `setDerivative`: extents and support have the dimension
as length, the map keys are distinct, every derivative vector has the
dimension as length with components in `int` range, and every grid is a
wellformed grid of that dimension. -/
def Potential.wfFile (p : Potential) : Prop :=
  p.mExtents.length = p.mDimension ∧
  p.mSupport.length = p.mDimension ∧
  (p.mData.map Prod.fst).Nodup ∧
  ∀ e ∈ p.mData, e.1.derivations.length = p.mDimension ∧
    (∀ d ∈ e.1.derivations, -(2 ^ 31) ≤ d ∧ d < 2 ^ 31) ∧
    e.2.wf ∧ e.2.mExtents.length = p.mDimension

instance (p : Potential) : Decidable p.wfFile := by
  unfold Potential.wfFile
  have : Decidable (∀ e ∈ p.mData, e.1.derivations.length = p.mDimension ∧
      (∀ d ∈ e.1.derivations, -(2 ^ 31) ≤ d ∧ d < 2 ^ 31) ∧
      e.2.wf ∧ e.2.mExtents.length = p.mDimension) := List.decidableBAll _ _
  infer_instance

theorem insertData_append (l : List (PotIndexType × DynamicGrid))
    (key : PotIndexType) (g : DynamicGrid) (h : ∀ e ∈ l, e.1 ≠ key) :
    insertData l key g = l ++ [(key, g)] := by
  induction l with
  | nil => rfl
  | cons hd tl ih =>
    unfold insertData
    rw [if_neg (h hd (List.mem_cons_self _ _))]
    rw [ih (fun e he => h e (List.mem_cons_of_mem _ he))]
    rfl

theorem readGridEntries_roundtrip (D : ℕ) :
    ∀ (rem : List (PotIndexType × DynamicGrid)) (pot : Potential)
      (rest : List FileTok),
    pot.mDimension = D →
    (∀ e ∈ rem, e.1.derivations.length = D ∧
      (∀ d ∈ e.1.derivations, -(2 ^ 31) ≤ d ∧ d < 2 ^ 31) ∧ e.2.wf ∧
      e.2.mExtents.length = D) →
    (∀ e ∈ rem, ∀ f ∈ pot.mData, f.1 ≠ e.1) →
    (rem.map Prod.fst).Nodup →
    readGridEntries D rem.length pot ((rem.map entryTokens).flatten ++ rest) =
      Except.ok
        ({ pot with mData := pot.mData ++ rem.map fun e => (e.1, e.2.asLoaded) },
          rest)
  | [], pot, rest, hD, hrem, hdisj, hnd => by
    show Except.ok (pot, rest) = _
    rw [List.map_nil, List.append_nil]
  | (k, g) :: rem, pot, rest, hD, hrem, hdisj, hnd => by
    have hkg := hrem (k, g) (List.mem_cons_self _ _)
    have step : readGridEntries D ((k, g) :: rem).length pot
        ((((k, g) :: rem).map entryTokens).flatten ++ rest) =
        (if k.name.length = k.name.length then
          (readI64ListTok D
              (((k.derivations.map (fun d => FileTok.u64 (u64OfInt d)) ++ g.dump) ++
                (rem.map entryTokens).flatten) ++ rest) >>=
            fun ix =>
              (DynamicGrid.load ix.2 >>= fun gr =>
                (pot.setDerivative ix.1 gr.1 k.name >>= fun pot2 =>
                  readGridEntries D rem.length pot2 gr.2)))
        else Except.error ()) := rfl
    rw [step, if_pos rfl, List.append_assoc, List.append_assoc,
      readI64ListTok_map k.derivations D _ hkg.1.symm hkg.2.1, except_bind_ok]
    dsimp only
    rw [load_dump_wf g _ hkg.2.2.1, except_bind_ok]
    dsimp only
    have hset : pot.setDerivative k.derivations g.asLoaded k.name =
        Except.ok { pot with mData := pot.mData ++ [(k, g.asLoaded)] } := by
      unfold Potential.setDerivative
      rw [if_neg (not_ne_iff.mpr (hD ▸ hkg.1)),
        if_neg (not_ne_iff.mpr (hD ▸ hkg.2.2.2))]
      rw [insertData_append pot.mData ⟨k.name, k.derivations⟩ g.asLoaded
        (fun e he => hdisj (k, g) (List.mem_cons_self _ _) e he)]
    rw [hset, except_bind_ok]
    rw [readGridEntries_roundtrip D rem
      { pot with mData := pot.mData ++ [(k, g.asLoaded)] } rest hD
      (fun e he => hrem e (List.mem_cons_of_mem _ he))
      (by
        intro e he f hf
        rcases List.mem_append.mp hf with hf | hf
        · exact hdisj e (List.mem_cons_of_mem _ he) f hf
        · rw [List.mem_singleton.mp hf]
          show k ≠ e.1
          intro hke
          have hmem : e.1 ∈ List.map Prod.fst rem := List.mem_map_of_mem Prod.fst he
          exact (List.nodup_cons.mp hnd).1 (by rw [hke]; exact hmem))
      (List.nodup_cons.mp hnd).2]
    rw [List.append_assoc]
    rfl

theorem potential_roundtrip_aux (p : Potential) (rest : List FileTok)
    (h : p.wfFile) :
    Potential.readFromFile (p.writeToFile ++ rest) =
      Except.ok (p.stripModes, rest) := by
  obtain ⟨hE, hS, hnd, hdata⟩ := h
  unfold Potential.writeToFile
  simp only [List.append_assoc, List.cons_append, List.nil_append]
  have step : Potential.readFromFile (FileTok.byte 98 :: FileTok.byte 112 ::
      FileTok.byte 111 :: FileTok.byte 116 :: FileTok.byte 53 ::
      FileTok.asciiNum (humanInfo p).length :: FileTok.raw (humanInfo p) ::
      FileTok.u64 p.mDimension ::
      (p.mSupport.map FileTok.f64 ++
        (p.mExtents.map FileTok.u64 ++
          (FileTok.u64 p.mSeed :: FileTok.u64 p.mPotgenVersion ::
            FileTok.u64 p.mData.length :: FileTok.f64 p.mCorrelationLength ::
              FileTok.f64 p.mStrength ::
                ((p.mData.map entryTokens).flatten ++ rest))))) =
      (if (humanInfo p).length = (humanInfo p).length then
        (readF64ListTok p.mDimension
            (p.mSupport.map FileTok.f64 ++
              (p.mExtents.map FileTok.u64 ++
                (FileTok.u64 p.mSeed :: FileTok.u64 p.mPotgenVersion ::
                  FileTok.u64 p.mData.length :: FileTok.f64 p.mCorrelationLength ::
                    FileTok.f64 p.mStrength ::
                      ((p.mData.map entryTokens).flatten ++ rest)))) >>=
          fun sup =>
            (readU64ListTok p.mDimension sup.2 >>= fun ext =>
              (readU64Tok ext.2 >>= fun sd =>
                (readU64Tok sd.2 >>= fun pg =>
                  (readU64Tok pg.2 >>= fun gc =>
                    (readF64Tok gc.2 >>= fun cl =>
                      (readF64Tok cl.2 >>= fun st =>
                        readGridEntries p.mDimension gc.1
                          ((mkPotential ext.1 sup.1 st.1).setCreationInfo
                            sd.1 pg.1 cl.1)
                          st.2)))))))
      else Except.error ()) := rfl
  rw [step, if_pos rfl,
    readF64ListTok_len p.mSupport p.mDimension _ hS.symm, except_bind_ok]
  dsimp only
  rw [readU64ListTok_len p.mExtents p.mDimension _ hE.symm, except_bind_ok]
  dsimp only
  rw [readU64Tok_cons, except_bind_ok]
  dsimp only
  rw [readU64Tok_cons, except_bind_ok]
  dsimp only
  rw [readU64Tok_cons, except_bind_ok]
  dsimp only
  rw [readF64Tok_cons, except_bind_ok]
  dsimp only
  rw [readF64Tok_cons, except_bind_ok]
  dsimp only
  rw [readGridEntries_roundtrip p.mDimension p.mData
    ((mkPotential p.mExtents p.mSupport p.mStrength).setCreationInfo
      p.mSeed p.mPotgenVersion p.mCorrelationLength) rest hE hdata
    (fun e _ f hf => absurd hf (List.not_mem_nil f)) hnd]
  dsimp only [mkPotential, Potential.setCreationInfo, Potential.stripModes,
    List.nil_append]
  rw [hE]

/-- C1: writing a potential with `Potential::writeToFile` and reading the
result back with `Potential::readFromFile` succeeds and reproduces the
metadata element-for-element — dimension, per-axis support, extents, seed,
generator version, correlation length, strength — and a grid map with the
same `(name, derivative index)` keys and byte-identical cell data (the
reloaded grids carry the IDENTITY access mode `DynamicGrid::load`
assigns). -/
theorem potential_writeToFile_readFromFile_roundtrip (p : Potential)
    (rest : List FileTok) (h : p.wfFile) :
    Potential.readFromFile (p.writeToFile ++ rest) =
      Except.ok (p.stripModes, rest) ∧
    p.stripModes.mDimension = p.mDimension ∧
    p.stripModes.mSupport = p.mSupport ∧
    p.stripModes.mExtents = p.mExtents ∧
    p.stripModes.mSeed = p.mSeed ∧
    p.stripModes.mPotgenVersion = p.mPotgenVersion ∧
    p.stripModes.mCorrelationLength = p.mCorrelationLength ∧
    p.stripModes.mStrength = p.mStrength ∧
    p.stripModes.mData.map (fun e => (e.1, e.2.mCells)) =
      p.mData.map (fun e => (e.1, e.2.mCells)) := by
  refine ⟨potential_roundtrip_aux p rest h, rfl, rfl, rfl, rfl, rfl, rfl, rfl, ?_⟩
  dsimp only [Potential.stripModes]
  rw [List.map_map]
  rfl

/-- Concrete one-dimensional potential with one stored periodic-mode grid,
used as the round-trip witness. -/
def potSample : Potential :=
  ⟨1, 5, [2], [1], 1, 1/10, 3,
    [(⟨[112, 111, 116], [1]⟩,
      ⟨[2], [1/2, 3], TransformationType.PERIODIC⟩)]⟩

/-- Witness for C1: the round trip applied to `potSample`. -/
theorem potential_roundtrip_witness :
    Potential.readFromFile (potSample.writeToFile ++ []) =
      Except.ok (potSample.stripModes, []) ∧
    potSample.stripModes.mDimension = potSample.mDimension ∧
    potSample.stripModes.mSupport = potSample.mSupport ∧
    potSample.stripModes.mExtents = potSample.mExtents ∧
    potSample.stripModes.mSeed = potSample.mSeed ∧
    potSample.stripModes.mPotgenVersion = potSample.mPotgenVersion ∧
    potSample.stripModes.mCorrelationLength = potSample.mCorrelationLength ∧
    potSample.stripModes.mStrength = potSample.mStrength ∧
    potSample.stripModes.mData.map (fun e => (e.1, e.2.mCells)) =
      potSample.mData.map (fun e => (e.1, e.2.mCells)) :=
  potential_writeToFile_readFromFile_roundtrip potSample [] (by decide)

/-!
## Caustic observer (src/tracer/observers/caustic_observer.cpp)

The observer works on particle states carrying the monodromy matrix and on
the cached initial condition's delta phase-space vectors.  All arithmetic
is plain `double` field arithmetic, modelled over `ℚ` so that concrete
runs stay decidable.
-/

/-- Multiply two zipped lists elementwise and sum (inner product). -/
def dotQ (a b : List ℚ) : ℚ := (List.zipWith (· * ·) a b).sum

/-- `prod(matrix, vector)` of boost::ublas on the model's list matrices. -/
def matVec (m : List (List ℚ)) (v : List ℚ) : List ℚ :=
  m.map fun row => dotQ row v

/-- A traced particle state: position, velocity, monodromy matrix. -/
structure TraceState where
  position : List ℚ
  velocity : List ℚ
  matrix : List (List ℚ)
deriving DecidableEq

/-- The part of an `InitialCondition` the caustic observer reads: the
start state's position and velocity, and the delta states' phase-space
vectors (`getDelta(k).getPhaseSpaceVector()`). -/
structure InitialCondition where
  startPosition : List ℚ
  startVelocity : List ℚ
  deltas : List (List ℚ)
deriving DecidableEq

/-- `getSignedArea2D`: advect the first delta with the monodromy matrix
and take the 2D cross product of its position part with the velocity. -/
def getSignedArea2D (particle : TraceState) (ic : InitialCondition) : ℚ :=
  let result := matVec particle.matrix (ic.deltas.getD 0 [])
  result.getD 0 0 * particle.velocity.getD 1 0 -
    result.getD 1 0 * particle.velocity.getD 0 0

/-- `getSignedArea3D`: advect both deltas, cross their position parts and
project onto the velocity. -/
def getSignedArea3D (particle : TraceState) (ic : InitialCondition) : ℚ :=
  let v1 := matVec particle.matrix (ic.deltas.getD 0 [])
  let v2 := matVec particle.matrix (ic.deltas.getD 1 [])
  let c0 := v1.getD 1 0 * v2.getD 2 0 - v1.getD 2 0 * v2.getD 1 0
  let c1 := -(v1.getD 0 0) * v2.getD 2 0 + v1.getD 2 0 * v2.getD 0 0
  let c2 := v1.getD 0 0 * v2.getD 1 0 - v1.getD 1 0 * v2.getD 0 0
  c0 * particle.velocity.getD 0 0 + c1 * particle.velocity.getD 1 0 +
    c2 * particle.velocity.getD 2 0

/-- `interpolate_linear_1d` (interpolation.hpp): `(b - a) * pos + a`. -/
def interpolate_linear_1d (a b pos : ℚ) : ℚ := (b - a) * pos + a

/-- `interpolate_linear_1d` on `gen_vect` values (componentwise
`(b - a) * pos + a`). -/
def interpolateVec (a b : List ℚ) (pos : ℚ) : List ℚ :=
  List.zipWith (fun x y => (y - x) * pos + x) a b

/-- One emitted caustic record (src/common/caustic.hpp): trajectory id,
interpolated position and velocity, the trajectory's initial position and
velocity, interpolated time, and the per-trajectory caustic count. -/
structure Caustic where
  trajectory : ℕ
  position : List ℚ
  initialPosition : List ℚ
  velocity : List ℚ
  initialVelocity : List ℚ
  time : ℚ
  index : ℕ
deriving DecidableEq

/-- State of a `CausticObserver` between `watch` calls. -/
structure CausticObserver where
  mBreakOnFirst : Bool
  mDimension : ℕ
  mOldArea : ℚ
  mOldPosition : List ℚ
  mOldVelocity : List ℚ
  mOldTime : ℚ
  mCausticCount : ℕ
  mParticleNumber : ℕ
  mCausticPositions : List Caustic
  mCachedInitialCondition : InitialCondition
deriving DecidableEq

/-- `CausticObserver::startTrajectory`: reset the previous signed area to
zero, cache the initial condition, reset the caustic count and record the
trajectory id. -/
def CausticObserver.startTrajectory (obs : CausticObserver)
    (start : InitialCondition) (trajectory : ℕ) : CausticObserver :=
  { obs with
    mOldArea := 0
    mCachedInitialCondition := start
    mCausticCount := 0
    mParticleNumber := trajectory }

/-- The signed area computed at the top of `watch`, dispatching on the
observer's dimension (2 or 3; the constructor rejects anything else). -/
def CausticObserver.currentArea (obs : CausticObserver) (state : TraceState) : ℚ :=
  if obs.mDimension = 2 then getSignedArea2D state obs.mCachedInitialCondition
  else if obs.mDimension = 3 then getSignedArea3D state obs.mCachedInitialCondition
  else 0

/-- The caustic record `watch` emits, with the crossing fraction
`p = -mOldArea / (signed_area - mOldArea)` and position, velocity and
time linearly interpolated between the cached previous sample and the
current one. -/
def CausticObserver.emitCaustic (obs : CausticObserver) (state : TraceState)
    (t : ℚ) : CausticObserver :=
  { obs with
    mCausticCount := obs.mCausticCount + 1
    mCausticPositions := obs.mCausticPositions ++
      [⟨obs.mParticleNumber,
        interpolateVec obs.mOldPosition state.position
          (-obs.mOldArea / (obs.currentArea state - obs.mOldArea)),
        obs.mCachedInitialCondition.startPosition,
        interpolateVec obs.mOldVelocity state.velocity
          (-obs.mOldArea / (obs.currentArea state - obs.mOldArea)),
        obs.mCachedInitialCondition.startVelocity,
        interpolate_linear_1d obs.mOldTime t
          (-obs.mOldArea / (obs.currentArea state - obs.mOldArea)),
        obs.mCausticCount + 1⟩] }

/-- The cache update at the bottom of `watch`: remember the current signed
area, position, velocity and time as the previous sample. -/
def CausticObserver.cacheStep (obs : CausticObserver) (state : TraceState)
    (t : ℚ) : CausticObserver :=
  { obs with
    mOldArea := obs.currentArea state
    mOldPosition := state.position
    mOldVelocity := state.velocity
    mOldTime := t }

/-- `CausticObserver::watch`: compute the signed area; when `t > 0` and
the sign changed (`signed_area * mOldArea < 0`) or the current area is
exactly zero, append an interpolated caustic record; with
`break_on_first` the trajectory is aborted right there (skipping the
cache update), otherwise the previous-sample cache is updated and tracing
continues. -/
def CausticObserver.watch (obs : CausticObserver) (state : TraceState) (t : ℚ) :
    CausticObserver × Bool :=
  if t > 0 ∧ (obs.currentArea state * obs.mOldArea < 0 ∨
      obs.currentArea state = 0) then
    if obs.mBreakOnFirst then (obs.emitCaustic state t, false)
    else ((obs.emitCaustic state t).cacheStep state t, true)
  else (obs.cacheStep state t, true)

/-- A concrete freshly started 2D observer (previous area 0) and a state
with nonzero signed area, used for the counterexample. -/
def causObs0 : CausticObserver :=
  CausticObserver.startTrajectory
    ⟨false, 2, 7, [], [], 0, 9, 9, [], ⟨[], [], []⟩⟩
    ⟨[0, 0], [0, 0], [[1, 0, 0, 0], [0, 1, 0, 0]]⟩ 0

/-- Concrete particle state whose signed area against `causObs0`'"'"'s cached
initial condition is 1 (identity monodromy, delta (1,0,0,0),
velocity (0,1)). -/
def causState0 : TraceState :=
  ⟨[0, 0], [0, 1],
    [[1, 0, 0, 0], [0, 1, 0, 0], [0, 0, 1, 0], [0, 0, 0, 1]]⟩

/-- Counterexample to C2: at the first watched step of a trajectory the
previous signed area is 0 and the current one is 1, so the claim'"'"'s
condition `t > 0 ∧ A_cur * A_prev ≤ 0` holds — yet the observer emits
nothing, because the code tests `A_cur * A_prev < 0 ∨ A_cur = 0`. -/
theorem caustic_watch_zero_prev_not_emitted :
    (CausticObserver.watch causObs0 causState0 1).1.mCausticPositions = [] ∧
    (1 : ℚ) > 0 ∧
    CausticObserver.currentArea causObs0 causState0 * causObs0.mOldArea ≤ 0 := by
  have hA : CausticObserver.currentArea causObs0 causState0 = 1 := by
    norm_num [CausticObserver.currentArea, getSignedArea2D, matVec, dotQ,
      causObs0, causState0, CausticObserver.startTrajectory]
  have hOld : causObs0.mOldArea = 0 := rfl
  refine ⟨?_, by norm_num, by rw [hA, hOld]; norm_num⟩
  unfold CausticObserver.watch
  rw [if_neg]
  · rfl
  · rw [hA, hOld]
    norm_num

/-- C2 amended: the caustic observer emits a record exactly when `t > 0`
and (`A_cur * A_prev < 0` or `A_cur = 0`), where `A_prev` is the cached
signed area of the previous step (0 at trajectory start); when it emits,
the record'"'"'s position, velocity and time are linearly interpolated
between the previous and current step at fraction
`α = −A_prev / (A_cur − A_prev)`. -/
theorem caustic_watch_emission (obs : CausticObserver) (state : TraceState)
    (t : ℚ) :
    ((CausticObserver.watch obs state t).1.mCausticPositions ≠
        obs.mCausticPositions ↔
      (t > 0 ∧ (obs.currentArea state * obs.mOldArea < 0 ∨
        obs.currentArea state = 0))) ∧
    ((t > 0 ∧ (obs.currentArea state * obs.mOldArea < 0 ∨
        obs.currentArea state = 0)) →
      (CausticObserver.watch obs state t).1.mCausticPositions =
        obs.mCausticPositions ++
          [⟨obs.mParticleNumber,
            interpolateVec obs.mOldPosition state.position
              (-obs.mOldArea / (obs.currentArea state - obs.mOldArea)),
            obs.mCachedInitialCondition.startPosition,
            interpolateVec obs.mOldVelocity state.velocity
              (-obs.mOldArea / (obs.currentArea state - obs.mOldArea)),
            obs.mCachedInitialCondition.startVelocity,
            interpolate_linear_1d obs.mOldTime t
              (-obs.mOldArea / (obs.currentArea state - obs.mOldArea)),
            obs.mCausticCount + 1⟩]) := by
  unfold CausticObserver.watch
  by_cases hc : t > 0 ∧ (obs.currentArea state * obs.mOldArea < 0 ∨
      obs.currentArea state = 0)
  · rw [if_pos hc]
    have hpos : (if obs.mBreakOnFirst then (obs.emitCaustic state t, false)
        else ((obs.emitCaustic state t).cacheStep state t, true)).1.mCausticPositions
        = obs.mCausticPositions ++
          [⟨obs.mParticleNumber,
            interpolateVec obs.mOldPosition state.position
              (-obs.mOldArea / (obs.currentArea state - obs.mOldArea)),
            obs.mCachedInitialCondition.startPosition,
            interpolateVec obs.mOldVelocity state.velocity
              (-obs.mOldArea / (obs.currentArea state - obs.mOldArea)),
            obs.mCachedInitialCondition.startVelocity,
            interpolate_linear_1d obs.mOldTime t
              (-obs.mOldArea / (obs.currentArea state - obs.mOldArea)),
            obs.mCausticCount + 1⟩] := by
      by_cases hb : obs.mBreakOnFirst
      · rw [if_pos hb]
        rfl
      · rw [if_neg hb]
        rfl
    refine ⟨⟨fun _ => hc, fun _ => ?_⟩, fun _ => hpos⟩
    rw [hpos]
    intro he
    have hlen := congrArg List.length he
    simp [List.length_append] at hlen
  · rw [if_neg hc]
    exact ⟨⟨fun h => absurd rfl h, fun h => absurd h hc⟩, fun h => absurd h hc⟩

/-- Observer mid-trajectory with cached previous sample of signed area −1,
position (0,0), velocity (1,0) at time 0. -/
def causObs1 : CausticObserver :=
  { causObs0 with
    mOldArea := -1
    mOldPosition := [0, 0]
    mOldVelocity := [1, 0]
    mOldTime := 0 }

/-- Witness for the amended C2: a sign change from −1 to 1 at `t = 1`
emits exactly one record interpolated at `α = 1/2`. -/
theorem caustic_watch_emission_witness :
    (CausticObserver.watch causObs1 causState0 1).1.mCausticPositions =
      causObs1.mCausticPositions ++
        [⟨causObs1.mParticleNumber,
          interpolateVec causObs1.mOldPosition causState0.position
            (-causObs1.mOldArea / (causObs1.currentArea causState0 - causObs1.mOldArea)),
          causObs1.mCachedInitialCondition.startPosition,
          interpolateVec causObs1.mOldVelocity causState0.velocity
            (-causObs1.mOldArea / (causObs1.currentArea causState0 - causObs1.mOldArea)),
          causObs1.mCachedInitialCondition.startVelocity,
          interpolate_linear_1d causObs1.mOldTime 1
            (-causObs1.mOldArea / (causObs1.currentArea causState0 - causObs1.mOldArea)),
          causObs1.mCausticCount + 1⟩] :=
  (caustic_watch_emission causObs1 causState0 1).2
    ⟨by norm_num,
     Or.inl (by
       norm_num [CausticObserver.currentArea, getSignedArea2D, matVec, dotQ,
         causObs1, causObs0, causState0, CausticObserver.startTrajectory])⟩

/-!
## Radial 2D initial conditions (src/tracer/initial_conditions/radial_wave.cpp)
-/

/-- `RadialWave2D::generate`: the ray position is the fixed origin
(`mStartingPos`), the velocity components are
`v[0] = sin(param·2π)`, `v[1] = cos(param·2π)`. -/
noncomputable def RadialWave2D.generate (mStartingPos : List ℝ) (param : ℝ) :
    List ℝ × List ℝ :=
  (mStartingPos,
    [Real.sin (param * 2 * Real.pi), Real.cos (param * 2 * Real.pi)])

/-- Modelled from the spec: the starting velocity the specification claims,
`v = (cos(2πu), sin(2πu))` (§4.6, *radial-2D*). -/
noncomputable def radial2DVelocitySpec (u : ℝ) : List ℝ :=
  [Real.cos (2 * Real.pi * u), Real.sin (2 * Real.pi * u)]

/-- Counterexample to C8: at `u = 0` the generator produces velocity
`(sin 0, cos 0) = (0, 1)` while the claim's formula gives
`(cos 0, sin 0) = (1, 0)` — the two components are swapped. -/
theorem radialWave2D_velocity_differs_from_spec :
    (RadialWave2D.generate [0.5, 0.5] 0).2 ≠ radial2DVelocitySpec 0 := by
  norm_num [RadialWave2D.generate, radial2DVelocitySpec]

/-- C8 amended: for every manifold coordinate `u` the radial-2D generator
produces a state whose position is the fixed origin and whose velocity is
`v = (sin(2πu), cos(2πu))` — the sine in the first component and the
cosine in the second. -/
theorem radialWave2D_generate_eq (origin : List ℝ) (u : ℝ) :
    RadialWave2D.generate origin u =
      (origin, [Real.sin (2 * Real.pi * u), Real.cos (2 * Real.pi * u)]) := by
  unfold RadialWave2D.generate
  rw [show u * 2 * Real.pi = 2 * Real.pi * u by ring]

/-!
## Phase-randomisation sign draw (src/potgen/randomize.cpp)

At a self-conjugate cell the code multiplies by
`rnd() < 0.5 ? 1 : -1`, where `rnd` is the worker's
`std::uniform_real_distribution<double>(0.0, 2*pi)` draw — the same
distribution object that produces the phases.  The probability of the
factor `+1` is therefore `0.5 / (2π) = 1/(4π)`, not `1/2` as the inline
comment ("we multiply +-1 with same probability") and the specification
assert.
-/

/-- The sign factor drawn at a self-conjugate cell (randomize.cpp:42). -/
noncomputable def pmFactor (x : ℝ) : ℝ := if x < 0.5 then 1 else -1

/-- Probability of an event under a uniform draw from `[a, b)`: Lebesgue
measure of the event inside the interval, over the interval length. -/
noncomputable def uniformProb (a b : ℝ) (s : Set ℝ) : ℝ :=
  (MeasureTheory.volume (s ∩ Set.Ico a b)).toReal / (b - a)

/-- C5 (code bug): under the worker RNG's uniform draw — which the code
takes from `[0, 2π)`, not `[0, 1)` — the probability of multiplying by
`+1` is `1/(4π) ≈ 0.0796`, not the `1/2` that the claim (and the code's
own comment) states. -/
theorem pm_sign_probability_biased :
    uniformProb 0 (2 * Real.pi) {x | pmFactor x = 1} = 1 / (4 * Real.pi) ∧
    uniformProb 0 (2 * Real.pi) {x | pmFactor x = 1} ≠ 1 / 2 := by
  have hpi := Real.pi_gt_three
  have hset : {x : ℝ | pmFactor x = 1} ∩ Set.Ico 0 (2 * Real.pi) =
      Set.Ico (0 : ℝ) 0.5 := by
    ext x
    simp only [Set.mem_inter_iff, Set.mem_setOf_eq, Set.mem_Ico, pmFactor]
    constructor
    · rintro ⟨h1, h2, h3⟩
      by_cases hx : x < 0.5
      · exact ⟨h2, hx⟩
      · rw [if_neg hx] at h1; norm_num at h1
    · rintro ⟨h1, h2⟩
      refine ⟨by rw [if_pos h2], h1, by nlinarith⟩
  have h05 : (0.5 : ℝ) = 1 / 2 := by norm_num
  have hvol : uniformProb 0 (2 * Real.pi) {x | pmFactor x = 1} =
      1 / (4 * Real.pi) := by
    unfold uniformProb
    rw [hset, Real.volume_Ico, ENNReal.toReal_ofReal (by norm_num)]
    rw [sub_zero, sub_zero, h05]
    rw [div_eq_div_iff (by positivity) (by positivity)]
    ring
  refine ⟨hvol, ?_⟩
  rw [hvol]
  intro h
  rw [div_eq_div_iff (by positivity) (by norm_num)] at h
  nlinarith

/-!
## Energy normalisation (src/tracer/dynamics/ParticleInPotentialDynamics.cpp)

`normalizeEnergy` interpolates the potential at the scaled position,
fails when the difference to the requested total energy is negative, and
otherwise rescales the velocity by `sqrt(2·diff) / ‖v‖`.  The grid access
goes through the periodic index map (the constructor sets the potential
grid to PERIODIC access and `linearInterpolate` asserts it).
-/

/-- Grid of `double` cells as used by the dynamics (`default_grid` with
periodic access). -/
structure RGrid where
  mExtents : List ℕ
  mCells : List ℝ

/-- One component of `PeriodicIndexFn` / `GetOffsetOf`: C++ `%` truncates
toward zero, and a negative remainder is shifted up by the extent. -/
def periodicComp (e : ℕ) (i : ℤ) : ℤ :=
  if i.tmod e < 0 then i.tmod e + e else i.tmod e

/-- Row-major combination of the periodic components
(`offset = offset * extends[i] + mod`). -/
def periodicOffsetGo : ℤ → List ℤ → List ℕ → ℤ
  | acc, i :: is, e :: es => periodicOffsetGo (acc * e + periodicComp e i) is es
  | acc, _, _ => acc

def periodicOffset (idx : List ℤ) (ext : List ℕ) : ℤ :=
  periodicOffsetGo 0 idx ext

/-- `interpolate_linear_1d` over `double`: `(b - a) * pos + a`. -/
noncomputable def lerpR (a b pos : ℝ) : ℝ := (b - a) * pos + a

/-- `dim_reduce_interpolate<D, N>::inter` (interpolation.cpp): argument
`n` stands for `N + 1`, so `n = 0` is the recursion end that looks up the
grid cell at `base`, and at `n = k + 1` the axis `k` is blended with
weight `v[k] - base[k]`. -/
noncomputable def dim_reduce_interpolate (grid : RGrid) (v : List ℝ) :
    ℕ → List ℤ → ℝ
  | 0, base => grid.mCells.getD (periodicOffset base grid.mExtents).toNat 0
  | n + 1, base =>
    lerpR (dim_reduce_interpolate grid v n base)
      (dim_reduce_interpolate grid v n (base.set n (base.getD n 0 + 1)))
      (v.getD n 0 - ((base.getD n 0 : ℤ) : ℝ))

/-- `linearInterpolate` (interpolation.cpp): dispatch on the grid
dimension (1..3), floor each coordinate into the base index, then run the
recursive blend. -/
noncomputable def linearInterpolate (grid : RGrid) (v : List ℝ) : ℝ :=
  match grid.mExtents.length with
  | 1 => dim_reduce_interpolate grid v 1 ((v.take 1).map Int.floor)
  | 2 => dim_reduce_interpolate grid v 2 ((v.take 2).map Int.floor)
  | 3 => dim_reduce_interpolate grid v 3 ((v.take 3).map Int.floor)
  | _ => 0

/-- Position/velocity pair of a particle `State` as `normalizeEnergy`
uses it. -/
structure PState where
  position : List ℝ
  velocity : List ℝ

/-- The members of `ParticleInPotentialDynamics` that `normalizeEnergy`
reads: dimension, per-axis scaling `extents/support`, and the potential
grid. -/
structure ParticleInPotentialDynamics where
  mDimension : ℕ
  mScalingFactor : List ℝ
  mPotential : RGrid

/-- The interpolated potential energy at the state's scaled position
(`p[i] = position[i] * mScalingFactor[i]`, then `linearInterpolate`). -/
noncomputable def ParticleInPotentialDynamics.epot
    (dyn : ParticleInPotentialDynamics) (state : PState) : ℝ :=
  linearInterpolate dyn.mPotential
    (List.zipWith (· * ·) state.position dyn.mScalingFactor)

/-- The squared velocity norm accumulated by the `i < mDimension` loop. -/
noncomputable def sumSqTake (l : List ℝ) (d : ℕ) : ℝ :=
  ((l.take d).map fun y => y * y).sum

/-- `ParticleInPotentialDynamics::normalizeEnergy`: throw when
`total_energy - epot < 0`, otherwise scale the velocity by
`sqrt(2·diff) / sqrt(Σ v_i²)`. -/
noncomputable def ParticleInPotentialDynamics.normalizeEnergy
    (dyn : ParticleInPotentialDynamics) (state : PState) (total_energy : ℝ) :
    Except Unit PState :=
  if total_energy - dyn.epot state < 0 then Except.error ()
  else Except.ok ⟨state.position,
    state.velocity.map fun x =>
      x * (Real.sqrt (2 * (total_energy - dyn.epot state)) /
        Real.sqrt (sumSqTake state.velocity dyn.mDimension))⟩

/-- Concrete 1D dynamics over a constant-1 potential grid. -/
noncomputable def dynOne : ParticleInPotentialDynamics :=
  ⟨1, [1], ⟨[2], [1, 1]⟩⟩

theorem dynOne_epot : dynOne.epot ⟨[0], [1]⟩ = 1 := by
  unfold ParticleInPotentialDynamics.epot dynOne linearInterpolate
  norm_num [dim_reduce_interpolate, lerpR, periodicOffset, periodicOffsetGo,
    periodicComp]

/-- Counterexample to C4: with the interpolated potential energy exactly
equal to the requested total energy (`Φ(p) = 1 = E_tot`, so `Φ(p) ≥
E_tot`), `normalizeEnergy` does not fail — the code tests `diff < 0`
strictly — and instead rescales the velocity to zero. -/
theorem normalizeEnergy_boundary_succeeds :
    ParticleInPotentialDynamics.normalizeEnergy dynOne ⟨[0], [1]⟩ 1 =
      Except.ok ⟨[0], [0]⟩ ∧
    dynOne.epot ⟨[0], [1]⟩ ≥ 1 := by
  constructor
  · unfold ParticleInPotentialDynamics.normalizeEnergy
    rw [if_neg (by rw [dynOne_epot]; norm_num)]
    rw [dynOne_epot]
    norm_num [sumSqTake, dynOne]
  · rw [dynOne_epot]

theorem take_map_comm : ∀ (d : ℕ) (f : ℝ → ℝ) (l : List ℝ),
    (l.map f).take d = (l.take d).map f
  | 0, _, _ => rfl
  | _ + 1, _, [] => rfl
  | d + 1, f, x :: xs =>
    congrArg (fun t => f x :: t) (take_map_comm d f xs)

theorem sumSq_map_scale (l : List ℝ) (c : ℝ) :
    ((l.map fun x => x * c).map fun y => y * y).sum =
      (c * c) * ((l.map fun y => y * y).sum) := by
  induction l with
  | nil => simp
  | cons x xs ih =>
    simp only [List.map_cons, List.sum_cons, ih]
    ring

/-- C4 amended: `normalizeEnergy(state, E_tot)` fails exactly when the
interpolated potential energy at the scaled position strictly exceeds the
total energy, `Φ(p) > E_tot` (at `Φ(p) = E_tot` it succeeds and zeroes
the velocity); when it succeeds and the velocity is not identically zero
over the first `D` components, the returned state keeps the position and
satisfies `½·Σ v'² + Φ(p) = E_tot`. -/
theorem normalizeEnergy_characterization
    (dyn : ParticleInPotentialDynamics) (state : PState) (E_tot : ℝ) :
    ((dyn.normalizeEnergy state E_tot = Except.error ()) ↔
      E_tot < dyn.epot state) ∧
    (dyn.epot state ≤ E_tot → 0 < sumSqTake state.velocity dyn.mDimension →
      ∃ st', dyn.normalizeEnergy state E_tot = Except.ok st' ∧
        st'.position = state.position ∧
        (1 / 2) * sumSqTake st'.velocity dyn.mDimension + dyn.epot state =
          E_tot) := by
  constructor
  · unfold ParticleInPotentialDynamics.normalizeEnergy
    by_cases h : E_tot - dyn.epot state < 0
    · rw [if_pos h]
      exact ⟨fun _ => by linarith, fun _ => rfl⟩
    · rw [if_neg h]
      exact ⟨fun he => absurd he (by intro hh; cases hh),
        fun hlt => absurd (by linarith : E_tot - dyn.epot state < 0) h⟩
  · intro hle hpos
    have hnn : (0 : ℝ) ≤ E_tot - dyn.epot state := by linarith
    refine ⟨⟨state.position, state.velocity.map fun x =>
      x * (Real.sqrt (2 * (E_tot - dyn.epot state)) /
        Real.sqrt (sumSqTake state.velocity dyn.mDimension))⟩, ?_, rfl, ?_⟩
    · unfold ParticleInPotentialDynamics.normalizeEnergy
      rw [if_neg (by linarith)]
    · have hS : sumSqTake state.velocity dyn.mDimension ≠ 0 :=
        ne_of_gt hpos
      have hc : (Real.sqrt (2 * (E_tot - dyn.epot state)) /
            Real.sqrt (sumSqTake state.velocity dyn.mDimension)) *
          (Real.sqrt (2 * (E_tot - dyn.epot state)) /
            Real.sqrt (sumSqTake state.velocity dyn.mDimension)) =
          2 * (E_tot - dyn.epot state) /
            sumSqTake state.velocity dyn.mDimension := by
        rw [div_mul_div_comm, Real.mul_self_sqrt (by linarith),
          Real.mul_self_sqrt (le_of_lt hpos)]
      show (1 / 2) * sumSqTake (state.velocity.map fun x =>
          x * (Real.sqrt (2 * (E_tot - dyn.epot state)) /
            Real.sqrt (sumSqTake state.velocity dyn.mDimension)))
          dyn.mDimension + dyn.epot state = E_tot
      conv_lhs =>
        rw [sumSqTake, take_map_comm, sumSq_map_scale, hc]
      show (1 / 2) * (2 * (E_tot - dyn.epot state) /
            sumSqTake state.velocity dyn.mDimension *
          sumSqTake state.velocity dyn.mDimension) + dyn.epot state = E_tot
      rw [div_mul_cancel₀ _ hS]
      ring

/-- Concrete 1D dynamics over the all-zero potential. -/
noncomputable def dynZero : ParticleInPotentialDynamics :=
  ⟨1, [1], ⟨[2], [0, 0]⟩⟩

theorem dynZero_epot : dynZero.epot ⟨[0], [1]⟩ = 0 := by
  unfold ParticleInPotentialDynamics.epot dynZero linearInterpolate
  norm_num [dim_reduce_interpolate, lerpR, periodicOffset, periodicOffsetGo,
    periodicComp]

/-- Witness for the amended C4: on the zero potential with unit velocity
and total energy ½, normalisation succeeds and the result carries energy
exactly ½. -/
theorem normalizeEnergy_characterization_witness :
    (ParticleInPotentialDynamics.normalizeEnergy dynZero ⟨[0], [1]⟩ (1 / 2) =
        Except.error () ↔
      (1 / 2 : ℝ) < dynZero.epot ⟨[0], [1]⟩) ∧
    (∃ st', ParticleInPotentialDynamics.normalizeEnergy dynZero ⟨[0], [1]⟩
          (1 / 2) = Except.ok st' ∧
        st'.position = (⟨[0], [1]⟩ : PState).position ∧
        (1 / 2) * sumSqTake st'.velocity dynZero.mDimension +
            dynZero.epot ⟨[0], [1]⟩ = 1 / 2) :=
  ⟨(normalizeEnergy_characterization dynZero ⟨[0], [1]⟩ (1 / 2)).1,
   (normalizeEnergy_characterization dynZero ⟨[0], [1]⟩ (1 / 2)).2
     (by rw [dynZero_epot]; norm_num)
     (by norm_num [sumSqTake, dynZero])⟩

/-!
## Phase randomisation and Hermitian symmetry (src/potgen/randomize.cpp)

`randomize_over_index` walks the FFT-centred index box
`∏ [-Eⱼ/2, Eⱼ/2)` (set up by `fft_indexing`, which requires every extent
to be even).  For each index it computes the storage offsets of the index
and of its negation through `FFTIndexFn` (dynamic_grid_base.cpp); when
`offset < iffset` it multiplies the two cells by `e^{iφ}` and `e^{-iφ}`
for a drawn phase `φ`, when `offset = iffset` it multiplies the cell by a
drawn sign.  The grid data is modelled as a map from storage offsets to
`ℂ`; the RNG as a stream of real draws consumed left to right.
-/

/-- One component of `FFTIndexFn`: a negative index is shifted up by the
extent. -/
def fftComp (e : ℕ) (i : ℤ) : ℤ := if i < 0 then e + i else i

/-- Row-major combination `offset = offset * extends[i] + comp`. -/
def fftOffsetGo : ℤ → List ℤ → List ℕ → ℤ
  | acc, i :: is, e :: es => fftOffsetGo (acc * e + fftComp e i) is es
  | acc, _, _ => acc

/-- `grid.getOffsetOf(index)` in FFT-centred mode. -/
def fftOffset (idx : List ℤ) (ext : List ℕ) : ℤ := fftOffsetGo 0 idx ext

/-- The per-axis index range `[-E/2, E/2)` set up by `fft_indexing`. -/
def axisRange (e : ℕ) : List ℤ :=
  (List.range e).map fun (k : ℕ) => -((e / 2 : ℕ) : ℤ) + (k : ℤ)

/-- Row-major enumeration of the box `∏ [-Eⱼ/2, Eⱼ/2)` that the
`MultiIndex` iteration in `randomize_over_index` walks. -/
def boxIndices : List ℕ → List (List ℤ)
  | [] => [[]]
  | e :: es => (axisRange e).flatMap fun i => (boxIndices es).map fun rest => i :: rest

/-- Membership of an index vector in the FFT-centred box. -/
def inBox (idx : List ℤ) (ext : List ℕ) : Prop :=
  List.Forall₂ (fun (i : ℤ) (e : ℕ) =>
    -((e / 2 : ℕ) : ℤ) ≤ i ∧ i < ((e / 2 : ℕ) : ℤ)) idx ext

/-- `complex_t(cos(phase), sin(phase))`. -/
noncomputable def phaseFactor (phase : ℝ) : ℂ := ⟨Real.cos phase, Real.sin phase⟩

/-- The `offset < iffset` branch: `grid[offset] *= factor;
grid[iffset] *= conj(factor)`.  The two offsets differ in this branch, so
reading the second cell before or after the first store is the same. -/
noncomputable def pairUpdate (g : ℤ → ℂ) (o1 o2 : ℤ) (c : ℂ) : ℤ → ℂ :=
  Function.update (Function.update g o1 (g o1 * c)) o2 (g o2 * (starRingEnd ℂ) c)

/-- One iteration of the loop in `randomize_over_index`, consuming a draw
from the stream exactly when the code calls `rnd()`. -/
noncomputable def randomizeStep (ext : List ℕ) (draws : ℕ → ℝ) :
    (ℤ → ℂ) × ℕ → List ℤ → (ℤ → ℂ) × ℕ
  | (g, k), idx =>
    if fftOffset idx ext < fftOffset (idx.map Neg.neg) ext then
      (pairUpdate g (fftOffset idx ext) (fftOffset (idx.map Neg.neg) ext)
        (phaseFactor (draws k)), k + 1)
    else if fftOffset idx ext = fftOffset (idx.map Neg.neg) ext then
      (Function.update g (fftOffset idx ext)
        (g (fftOffset idx ext) * (((if draws k < 0.5 then 1 else -1) : ℝ) : ℂ)),
        k + 1)
    else (g, k)

/-- `randomize_over_index` over a list of indices (the full box, or one of
the sub-ranges `split` hands to a worker). -/
noncomputable def randomize_over_index (ext : List ℕ) (draws : ℕ → ℝ)
    (g : ℤ → ℂ) (idxs : List (List ℤ)) : (ℤ → ℂ) × ℕ :=
  idxs.foldl (randomizeStep ext draws) (g, 0)

/-- Hermitian symmetry of the stored data with respect to FFT-centred
indexing: `G[n] = conj(G[-n])` for every index `n` of the box. -/
def HermitianSym (ext : List ℕ) (g : ℤ → ℂ) : Prop :=
  ∀ idx, inBox idx ext →
    g (fftOffset idx ext) = (starRingEnd ℂ) (g (fftOffset (idx.map Neg.neg) ext))

/-- The in-box representative of the negated index: `-(-E/2)` wraps back
to `-E/2` (both map to the storage offset `E/2`), every other component
just negates. -/
def wnegC (e : ℕ) (i : ℤ) : ℤ := if i = -((e / 2 : ℕ) : ℤ) then i else -i

def wneg (ext : List ℕ) (idx : List ℤ) : List ℤ := List.zipWith wnegC ext idx

theorem fftComp_bounds (e : ℕ) (i : ℤ) (he : e % 2 = 0)
    (h1 : -((e / 2 : ℕ) : ℤ) ≤ i) (h2 : i < ((e / 2 : ℕ) : ℤ)) :
    0 ≤ fftComp e i ∧ fftComp e i < e := by
  unfold fftComp
  split <;> omega

theorem fftComp_inj (e : ℕ) (i j : ℤ) (he : e % 2 = 0)
    (hi1 : -((e / 2 : ℕ) : ℤ) ≤ i) (hi2 : i < ((e / 2 : ℕ) : ℤ))
    (hj1 : -((e / 2 : ℕ) : ℤ) ≤ j) (hj2 : j < ((e / 2 : ℕ) : ℤ))
    (h : fftComp e i = fftComp e j) : i = j := by
  unfold fftComp at h
  split at h <;> split at h <;> omega

theorem fftComp_neg (e : ℕ) (i : ℤ) (he : e % 2 = 0)
    (h1 : -((e / 2 : ℕ) : ℤ) ≤ i) (h2 : i < ((e / 2 : ℕ) : ℤ)) :
    fftComp e (-i) = fftComp e (wnegC e i) := by
  unfold wnegC
  split
  · next hlow =>
    unfold fftComp
    split <;> split <;> omega
  · rfl

theorem wnegC_inBox (e : ℕ) (i : ℤ) (he : e % 2 = 0)
    (h1 : -((e / 2 : ℕ) : ℤ) ≤ i) (h2 : i < ((e / 2 : ℕ) : ℤ)) :
    -((e / 2 : ℕ) : ℤ) ≤ wnegC e i ∧ wnegC e i < ((e / 2 : ℕ) : ℤ) := by
  unfold wnegC
  split <;> omega

theorem wnegC_invol (e : ℕ) (i : ℤ)
    (h1 : -((e / 2 : ℕ) : ℤ) ≤ i) (h2 : i < ((e / 2 : ℕ) : ℤ)) :
    wnegC e (wnegC e i) = i := by
  unfold wnegC
  split
  · rfl
  · split <;> omega

theorem wneg_inBox : ∀ (idx : List ℤ) (ext : List ℕ), inBox idx ext →
    (∀ e ∈ ext, e % 2 = 0) → inBox (wneg ext idx) ext := by
  intro idx ext h
  induction h with
  | nil => intro _; exact List.Forall₂.nil
  | cons hc _ ih =>
    intro hE
    exact List.Forall₂.cons
      (wnegC_inBox _ _ (hE _ (List.mem_cons_self _ _)) hc.1 hc.2)
      (ih fun e he => hE e (List.mem_cons_of_mem _ he))

theorem wneg_invol : ∀ (idx : List ℤ) (ext : List ℕ), inBox idx ext →
    wneg ext (wneg ext idx) = idx := by
  intro idx ext h
  induction h with
  | nil => rfl
  | cons hc _ ih =>
    show wnegC _ (wnegC _ _) :: wneg _ (wneg _ _) = _
    rw [wnegC_invol _ _ hc.1 hc.2, ih]

theorem fftOffsetGo_neg : ∀ (idx : List ℤ) (ext : List ℕ), inBox idx ext →
    (∀ e ∈ ext, e % 2 = 0) → ∀ acc : ℤ,
    fftOffsetGo acc (idx.map Neg.neg) ext = fftOffsetGo acc (wneg ext idx) ext := by
  intro idx ext h
  induction h with
  | nil => intro _ _; rfl
  | cons hc _ ih =>
    intro hE acc
    show fftOffsetGo (acc * _ + fftComp _ (-_)) _ _ = _
    rw [fftComp_neg _ _ (hE _ (List.mem_cons_self _ _)) hc.1 hc.2]
    exact ih (fun e he => hE e (List.mem_cons_of_mem _ he)) _

theorem fftOffset_neg (idx : List ℤ) (ext : List ℕ) (h : inBox idx ext)
    (hE : ∀ e ∈ ext, e % 2 = 0) :
    fftOffset (idx.map Neg.neg) ext = fftOffset (wneg ext idx) ext :=
  fftOffsetGo_neg idx ext h hE 0

theorem foldl_mul_acc : ∀ (es : List ℕ) (a : ℕ),
    es.foldl (· * ·) a = a * es.foldl (· * ·) 1
  | [], a => (Nat.mul_one a).symm
  | e :: es, a => by
    show es.foldl (· * ·) (a * e) = a * es.foldl (· * ·) (1 * e)
    rw [foldl_mul_acc es (a * e), foldl_mul_acc es (1 * e), Nat.one_mul,
      Nat.mul_assoc]

theorem prodExtents_cons (e : ℕ) (es : List ℕ) :
    prodExtents (e :: es) = e * prodExtents es := by
  show es.foldl (· * ·) (1 * e) = e * es.foldl (· * ·) 1
  rw [Nat.one_mul, foldl_mul_acc es e]

theorem fftOffsetGo_bounds : ∀ (idx : List ℤ) (ext : List ℕ), inBox idx ext →
    (∀ e ∈ ext, e % 2 = 0) → ∀ acc : ℤ,
    acc * (prodExtents ext : ℤ) ≤ fftOffsetGo acc idx ext ∧
    fftOffsetGo acc idx ext < (acc + 1) * (prodExtents ext : ℤ) ∧
    1 ≤ prodExtents ext := by
  intro idx ext h
  induction h with
  | nil =>
    intro _ acc
    refine ⟨?_, ?_, le_refl 1⟩
    · show acc * ((1 : ℕ) : ℤ) ≤ acc
      simp
    · show acc < (acc + 1) * ((1 : ℕ) : ℤ)
      simp
  | @cons i e is es hc _ ih =>
    intro hE acc
    have he := hE e (List.mem_cons_self _ _)
    have hcb := fftComp_bounds e i he hc.1 hc.2
    have ihc := ih (fun x hx => hE x (List.mem_cons_of_mem _ hx))
      (acc * e + fftComp e i)
    have hP : 1 ≤ (prodExtents es : ℤ) := by exact_mod_cast ihc.2.2
    have hee : (2 : ℤ) ≤ e := by omega
    refine ⟨?_, ?_, ?_⟩
    · show acc * (prodExtents (e :: es) : ℤ) ≤ fftOffsetGo (acc * e + fftComp e i) is es
      rw [prodExtents_cons]
      push_cast
      nlinarith [ihc.1, hcb.1, hP]
    · show fftOffsetGo (acc * e + fftComp e i) is es < (acc + 1) * (prodExtents (e :: es) : ℤ)
      rw [prodExtents_cons]
      push_cast
      nlinarith [ihc.2.1, hcb.2, hP]
    · rw [prodExtents_cons]
      have := ihc.2.2
      nlinarith [ihc.2.2]

theorem fftOffsetGo_inj : ∀ (ext : List ℕ) (m n : List ℤ), inBox m ext →
    inBox n ext → (∀ e ∈ ext, e % 2 = 0) → ∀ acc : ℤ,
    fftOffsetGo acc m ext = fftOffsetGo acc n ext → m = n := by
  intro ext
  induction ext with
  | nil =>
    intro m n hm hn _ _ _
    cases hm
    cases hn
    rfl
  | cons e es ih =>
    intro m n hm hn hE acc hoff
    rcases hm with - | ⟨hcm, hm⟩
    rename_i i is
    rcases hn with - | ⟨hcn, hn⟩
    rename_i j js
    have he := hE e (List.mem_cons_self _ _)
    have hE2 := fun x hx => hE x (List.mem_cons_of_mem _ hx)
    have hbm := fftOffsetGo_bounds is es hm hE2 (acc * e + fftComp e i)
    have hbn := fftOffsetGo_bounds js es hn hE2 (acc * e + fftComp e j)
    have hcomp : fftComp e i = fftComp e j := by
      rcases lt_trichotomy (fftComp e i) (fftComp e j) with hlt | hh | hlt
    -- offsets of distinct first components live in disjoint blocks
      · exfalso
        have h1 := hbm.2.1
        have h2 := hbn.1
        rw [show fftOffsetGo acc (i :: is) (e :: es) =
          fftOffsetGo (acc * e + fftComp e i) is es from rfl] at hoff
        rw [show fftOffsetGo acc (j :: js) (e :: es) =
          fftOffsetGo (acc * e + fftComp e j) js es from rfl] at hoff
        nlinarith [hbm.2.2, hbm.2.1, hbn.1]
      · exact hh
      · exfalso
        rw [show fftOffsetGo acc (i :: is) (e :: es) =
          fftOffsetGo (acc * e + fftComp e i) is es from rfl] at hoff
        rw [show fftOffsetGo acc (j :: js) (e :: es) =
          fftOffsetGo (acc * e + fftComp e j) js es from rfl] at hoff
        nlinarith [hbn.2.2, hbn.2.1, hbm.1]
    have hij : i = j := fftComp_inj e i j he hcm.1 hcm.2 hcn.1 hcn.2 hcomp
    subst hij
    rw [show fftOffsetGo acc (i :: is) (e :: es) =
      fftOffsetGo (acc * e + fftComp e i) is es from rfl,
      show fftOffsetGo acc (i :: js) (e :: es) =
      fftOffsetGo (acc * e + fftComp e i) js es from rfl] at hoff
    rw [ih is js hm hn hE2 _ hoff]

theorem fftOffset_inj (ext : List ℕ) (m n : List ℤ) (hm : inBox m ext)
    (hn : inBox n ext) (hE : ∀ e ∈ ext, e % 2 = 0)
    (h : fftOffset m ext = fftOffset n ext) : m = n :=
  fftOffsetGo_inj ext m n hm hn hE 0 h

theorem mem_axisRange (e : ℕ) (i : ℤ) (he : e % 2 = 0) (h : i ∈ axisRange e) :
    -((e / 2 : ℕ) : ℤ) ≤ i ∧ i < ((e / 2 : ℕ) : ℤ) := by
  unfold axisRange at h
  rcases List.mem_map.mp h with ⟨k, hk, rfl⟩
  have := List.mem_range.mp hk
  omega

theorem mem_boxIndices : ∀ (ext : List ℕ) (idx : List ℤ),
    (∀ e ∈ ext, e % 2 = 0) → idx ∈ boxIndices ext → inBox idx ext := by
  intro ext
  induction ext with
  | nil =>
    intro idx _ h
    rw [show boxIndices [] = [[]] from rfl, List.mem_singleton] at h
    rw [h]
    exact List.Forall₂.nil
  | cons e es ih =>
    intro idx hE h
    rcases List.mem_flatMap.mp h with ⟨i, hi, hrest⟩
    rcases List.mem_map.mp hrest with ⟨rest, hrest2, rfl⟩
    have hb := mem_axisRange e i (hE e (List.mem_cons_self _ _)) hi
    exact List.Forall₂.cons ⟨hb.1, hb.2⟩
      (ih rest (fun x hx => hE x (List.mem_cons_of_mem _ hx)) hrest2)

theorem randomizeStep_herm (ext : List ℕ) (draws : ℕ → ℝ) (g : ℤ → ℂ) (k : ℕ)
    (idx : List ℤ) (hE : ∀ e ∈ ext, e % 2 = 0) (hidx : inBox idx ext)
    (hg : HermitianSym ext g) :
    HermitianSym ext (randomizeStep ext draws (g, k) idx).1 := by
  have hwb : inBox (wneg ext idx) ext := wneg_inBox idx ext hidx hE
  have hneg : fftOffset (idx.map Neg.neg) ext = fftOffset (wneg ext idx) ext :=
    fftOffset_neg idx ext hidx hE
  have hwwi : wneg ext (wneg ext idx) = idx := wneg_invol idx ext hidx
  have hmneg : ∀ m, inBox m ext →
      fftOffset (m.map Neg.neg) ext = fftOffset (wneg ext m) ext :=
    fun m hm => fftOffset_neg m ext hm hE
  have hinj : ∀ m n, inBox m ext → inBox n ext →
      fftOffset m ext = fftOffset n ext → m = n :=
    fun m n hm hn h => fftOffset_inj ext m n hm hn hE h
  have hstep0 : randomizeStep ext draws (g, k) idx =
      if fftOffset idx ext < fftOffset (idx.map Neg.neg) ext then
        (pairUpdate g (fftOffset idx ext) (fftOffset (idx.map Neg.neg) ext)
          (phaseFactor (draws k)), k + 1)
      else if fftOffset idx ext = fftOffset (idx.map Neg.neg) ext then
        (Function.update g (fftOffset idx ext)
          (g (fftOffset idx ext) * (((if draws k < 0.5 then 1 else -1) : ℝ) : ℂ)),
          k + 1)
      else (g, k) := rfl
  by_cases hlt : fftOffset idx ext < fftOffset (idx.map Neg.neg) ext
  · have hne : fftOffset idx ext ≠ fftOffset (wneg ext idx) ext := by
      rw [← hneg]
      exact ne_of_lt hlt
    have hstep : (randomizeStep ext draws (g, k) idx).1 =
        pairUpdate g (fftOffset idx ext) (fftOffset (wneg ext idx) ext)
          (phaseFactor (draws k)) := by
      rw [hstep0, if_pos hlt, hneg]
    rw [hstep]
    have hP1 : pairUpdate g (fftOffset idx ext) (fftOffset (wneg ext idx) ext)
        (phaseFactor (draws k)) (fftOffset idx ext) =
        g (fftOffset idx ext) * phaseFactor (draws k) := by
      unfold pairUpdate
      rw [Function.update_noteq hne, Function.update_same]
    have hP2 : pairUpdate g (fftOffset idx ext) (fftOffset (wneg ext idx) ext)
        (phaseFactor (draws k)) (fftOffset (wneg ext idx) ext) =
        g (fftOffset (wneg ext idx) ext) *
          (starRingEnd ℂ) (phaseFactor (draws k)) := by
      unfold pairUpdate
      rw [Function.update_same]
    have hPo : ∀ o, o ≠ fftOffset idx ext → o ≠ fftOffset (wneg ext idx) ext →
        pairUpdate g (fftOffset idx ext) (fftOffset (wneg ext idx) ext)
          (phaseFactor (draws k)) o = g o := by
      intro o h1 h2
      unfold pairUpdate
      rw [Function.update_noteq h2, Function.update_noteq h1]
    have hg1 : g (fftOffset idx ext) =
        (starRingEnd ℂ) (g (fftOffset (wneg ext idx) ext)) := by
      have h := hg idx hidx
      rwa [hneg] at h
    have hg2 : g (fftOffset (wneg ext idx) ext) =
        (starRingEnd ℂ) (g (fftOffset idx ext)) := by
      have h := hg (wneg ext idx) hwb
      rwa [hmneg (wneg ext idx) hwb, hwwi] at h
    intro m hm
    rw [hmneg m hm]
    by_cases hm1 : m = idx
    · subst hm1
      rw [hP1, hP2, map_mul, starRingEnd_self_apply, hg1]
    · by_cases hm2 : m = wneg ext idx
      · subst hm2
        rw [hwwi, hP2, hP1, map_mul, hg2]
      · have hq1 : fftOffset m ext ≠ fftOffset idx ext :=
          fun h => hm1 (hinj m idx hm hidx h)
        have hq2 : fftOffset m ext ≠ fftOffset (wneg ext idx) ext :=
          fun h => hm2 (hinj m (wneg ext idx) hm hwb h)
        have hwm : inBox (wneg ext m) ext := wneg_inBox m ext hm hE
        have hq3 : fftOffset (wneg ext m) ext ≠ fftOffset idx ext := by
          intro h
          have he2 := hinj (wneg ext m) idx hwm hidx h
          exact hm2 (by rw [← wneg_invol m ext hm, he2])
        have hq4 : fftOffset (wneg ext m) ext ≠ fftOffset (wneg ext idx) ext := by
          intro h
          have he2 := hinj (wneg ext m) (wneg ext idx) hwm hwb h
          exact hm1 (by rw [← wneg_invol m ext hm, he2, wneg_invol idx ext hidx])
        rw [hPo _ hq1 hq2, hPo _ hq3 hq4]
        have h := hg m hm
        rwa [hmneg m hm] at h
  · by_cases heq : fftOffset idx ext = fftOffset (idx.map Neg.neg) ext
    · have hstep : (randomizeStep ext draws (g, k) idx).1 =
          Function.update g (fftOffset idx ext)
            (g (fftOffset idx ext) *
              (((if draws k < 0.5 then 1 else -1) : ℝ) : ℂ)) := by
        rw [hstep0, if_neg hlt, if_pos heq]
      have heq2 : fftOffset idx ext = fftOffset (wneg ext idx) ext := by
        rw [heq, hneg]
      have hfix : idx = wneg ext idx := hinj idx (wneg ext idx) hidx hwb heq2
      rw [hstep]
      intro m hm
      rw [hmneg m hm]
      by_cases hm1 : m = idx
      · subst hm1
        rw [← hfix, Function.update_same, map_mul, Complex.conj_ofReal]
        have hgg : g (fftOffset m ext) =
            (starRingEnd ℂ) (g (fftOffset m ext)) := by
          have h := hg m hm
          rwa [hmneg m hm, ← hfix] at h
        rw [← hgg]
      · have hq1 : fftOffset m ext ≠ fftOffset idx ext :=
          fun h => hm1 (hinj m idx hm hidx h)
        have hwm : inBox (wneg ext m) ext := wneg_inBox m ext hm hE
        have hq3 : fftOffset (wneg ext m) ext ≠ fftOffset idx ext := by
          intro h
          have he2 := hinj (wneg ext m) idx hwm hidx h
          exact hm1 (by rw [← wneg_invol m ext hm, he2, ← hfix])
        rw [Function.update_noteq hq1, Function.update_noteq hq3]
        have h := hg m hm
        rwa [hmneg m hm] at h
    · have hstep : (randomizeStep ext draws (g, k) idx).1 = g := by
        rw [hstep0, if_neg hlt, if_neg heq]
      rw [hstep]
      exact hg

theorem foldl_randomizeStep_herm (ext : List ℕ) (draws : ℕ → ℝ)
    (hE : ∀ e ∈ ext, e % 2 = 0) :
    ∀ (L : List (List ℤ)) (p : (ℤ → ℂ) × ℕ), (∀ idx ∈ L, inBox idx ext) →
    HermitianSym ext p.1 →
    HermitianSym ext (L.foldl (randomizeStep ext draws) p).1 := by
  intro L
  induction L with
  | nil => intro p _ hg; exact hg
  | cons idx L ih =>
    intro p hL hg
    obtain ⟨g, k⟩ := p
    exact ih (randomizeStep ext draws (g, k) idx)
      (fun j hj => hL j (List.mem_cons_of_mem _ hj))
      (randomizeStep_herm ext draws g k idx hE (hL idx (List.mem_cons_self _ _)) hg)

/-- C3: for every even-extent complex grid `g` satisfying the Hermitian
symmetry `G[n] = conj(G[-n])` at every FFT-centred index of the box, and for
every stream of random draws (hence every seed), the phase-randomisation pass
of `randomizePhases` — `randomize_over_index` walked over the full FFT-centred
index box — leaves the grid satisfying `G[n] = conj(G[-n])` at every
FFT-centred index. -/
theorem randomizePhases_hermitian (ext : List ℕ) (draws : ℕ → ℝ) (g : ℤ → ℂ)
    (hE : ∀ e ∈ ext, e % 2 = 0) (hg : HermitianSym ext g) :
    HermitianSym ext (randomize_over_index ext draws g (boxIndices ext)).1 :=
  foldl_randomizeStep_herm ext draws hE (boxIndices ext) (g, 0)
    (fun idx hidx => mem_boxIndices ext idx hE hidx) hg

theorem randomizePhases_hermitian_witness :
    HermitianSym [2] (randomize_over_index [2] (fun _ => 0) (fun _ => 1)
      (boxIndices [2])).1 :=
  randomizePhases_hermitian [2] (fun _ => 0) (fun _ => 1) (by decide)
    (fun idx h => by simp)
